import Mathlib

/-!
Verification of the job-scheduling engine in `main.py` (Job Scheduling API v16.0).

The development shallowly embeds the scheduling core: the fixed configuration
constants, the chunk-size decomposition (`_create_intelligent_split` and the
identical inline computation in `BacktrackingSolver.solve`), the two
depth-first topological sorts, the greedy list scheduler
(`BacktrackingSolver.solve`), the chromosome evaluator
(`CulturalAlgorithm._evaluate_chromosome`), the belief space
(`BeliefSpace.update`), and the outer solve drivers.

Modelling conventions:
* Python ints are `Nat` (all quantities in the engine are non-negative).
* Python floats are `ℚ`; `float('inf')` is modelled by `WithTop ℚ` or by a
  dedicated constructor of a result type.
* A raised Python exception (`KeyError`, failed `assert`) is modelled by an
  explicit error constructor (`Except.error` / a `key` constructor); a
  function that cannot raise simply returns its value.
* Python dicts keyed by ints are association lists or functions with a
  default, matching the `.get(k, default)` / `d[k] = v` usage in the source.
* The random number generator has no semantic content for the claims below;
  where the source draws random machine assignments or populations the
  embedding is parameterised by those choices (an arbitrary value of the
  corresponding type), so every theorem quantifies over all possible draws.
* Wall-clock fields (`execution_time`), log strings, and the matplotlib plot
  are presentation-only and are not modelled.
-/

/-- Job model (pydantic `Job`): identifier, name, total duration,
dependency identifiers, and the informational minimum chunk size. -/
structure Job where
  id : Nat
  name : String
  duration : Nat
  dependencies : List Nat
  min_chunk_size : Nat := 1
deriving DecidableEq, Repr

/-- Fixed machine capacity (constant `FIXED_MACHINE_CAPACITY = 40`). -/
def FIXED_MACHINE_CAPACITY : Nat := 40

/-- Number of machines (constant `NUM_MACHINES = 3`). -/
def NUM_MACHINES : Nat := 3

/-- Maximum chunk size (constant `MAX_CHUNK_SIZE = 5`). -/
def MAX_CHUNK_SIZE : Nat := 5

/-- Total capacity over all machines (constant `TOTAL_CAPACITY`). -/
def TOTAL_CAPACITY : Nat := FIXED_MACHINE_CAPACITY * NUM_MACHINES

/-- First pass of `CulturalAlgorithm._create_intelligent_split`: split a
duration into `ceil(duration / MAX_CHUNK_SIZE)` near-equal parts, the first
`duration mod num_chunks` parts one unit larger. -/
def initial_sizes (duration : Nat) : List Nat :=
  let num_chunks := (duration + MAX_CHUNK_SIZE - 1) / MAX_CHUNK_SIZE
  let base := duration / num_chunks
  let remainder := duration % num_chunks
  (List.range num_chunks).map (fun i => if i < remainder then base + 1 else base)

/-- Second pass of `_create_intelligent_split` applied to one oversize part:
re-balance a part that still exceeds `MAX_CHUNK_SIZE`. -/
def sub_split (size : Nat) : List Nat :=
  let sub_chunks := (size + MAX_CHUNK_SIZE - 1) / MAX_CHUNK_SIZE
  let sub_base := size / sub_chunks
  let sub_rem := size % sub_chunks
  (List.range sub_chunks).map (fun j => if j < sub_rem then sub_base + 1 else sub_base)

/-- The chunk-size list produced by `CulturalAlgorithm._create_intelligent_split`
(the machine assignment of the chunks is randomized and handled separately).
`BacktrackingSolver.solve` computes exactly the same list inline for oversized
jobs. -/
def create_intelligent_split_sizes (duration : Nat) : List Nat :=
  (initial_sizes duration).flatMap
    (fun size => if size > MAX_CHUNK_SIZE then sub_split size else [size])

/-- A triple of per-machine values (the source uses length-3 lists indexed by
machine number; `NUM_MACHINES` is fixed at 3). -/
structure M3 (α : Type) where
  c0 : α
  c1 : α
  c2 : α
deriving DecidableEq, Repr

/-- Read the component for machine `m` (machine numbers in the engine are
always `0`, `1` or `2`; theorems about arbitrary chromosomes carry that as a
hypothesis, matching the `IndexError` a larger index would raise in Python). -/
def M3.get {α : Type} (v : M3 α) : Nat → α
  | 0 => v.c0
  | 1 => v.c1
  | _ => v.c2

/-- Replace the component for machine `m`. -/
def M3.set {α : Type} (v : M3 α) : Nat → α → M3 α
  | 0, a => { v with c0 := a }
  | 1, a => { v with c1 := a }
  | _, a => { v with c2 := a }

/-- Make an `M3` with all components equal (`[0] * 3`, `[[] for _ in range(3)]`). -/
def M3.fill {α : Type} (a : α) : M3 α := ⟨a, a, a⟩

/-- A placed chunk as stored in the per-machine schedule lists: the source
appends tuples `(job, start, end, size)`. -/
structure Entry where
  job : Job
  start : Nat
  stop : Nat
  size : Nat
deriving DecidableEq, Repr

/-- A capacity-violation record as built in `_evaluate_chromosome` and
`BacktrackingSolver.solve` (dict with keys `job_id`, `job_name`, `machine`,
`chunk_size`, `exceeded_by`, `start`, `end`). -/
structure Viol where
  job_id : Nat
  job_name : String
  machine : Nat
  chunk_size : Nat
  exceeded_by : Nat
  start : Nat
  stop : Nat
deriving DecidableEq, Repr

/-- A chunk of the final response schedule (pydantic `TaskChunk`). -/
structure TaskChunk where
  job : Job
  machine : Nat
  start : Nat
  stop : Nat
  chunk_id : Nat
  total_chunks : Nat
  size : Nat
deriving DecidableEq, Repr

/-- The solver response (pydantic `ScheduleResult`), restricted to the fields
with algorithmic content; `execution_time`, `logs`, the plot and the derived
percentage statistics are presentation-only and not modelled. -/
structure ScheduleResult where
  success : Bool
  makespan : ℚ
  schedule : List (List TaskChunk)
  splits_info : List (Nat × Nat)
  capacity_violations : Option (List Viol) := none
  error_message : Option String := none
deriving DecidableEq, Repr

/-- `_create_error_result`: failure result with empty schedule and makespan 0. -/
def create_error_result : ScheduleResult :=
  { success := false, makespan := 0, schedule := [], splits_info := [] }

/-- `_create_capacity_error_result`: failure result carrying `error_message`. -/
def create_capacity_error_result (msg : String) : ScheduleResult :=
  { success := false, makespan := 0, schedule := [], splits_info := [],
    error_message := some msg }

/-- The capacity-error message built by both solvers for an offending job. -/
def capacity_error_msg (j : Job) : String :=
  "Job '" ++ j.name ++ "' (" ++ toString j.duration ++
    " units) exceeds the 40-unit machine capacity limit"

/-- Lookup in `self.job_dict = {job.id: job for job in jobs}`.  A Python dict
comprehension keeps the last binding for a duplicated key, hence the fold. -/
def job_dict_find (jobs : List Job) (id : Nat) : Option Job :=
  jobs.foldl (fun acc j => if j.id = id then some j else acc) none

/-- State threaded through the depth-first topological sorts: the `visited`
and `temp` marker sets and the accumulated `result` list. -/
structure TState where
  visited : List Nat
  temp : List Nat
  result : List Job
deriving DecidableEq, Repr

/-- Outcome of one `dfs` call inside `BacktrackingSolver._topological_sort`:
success with an updated state, a detected cycle (Python `return False`), the
`KeyError` raised by `result.append(self.job_dict[job_id])` when `job_id` has
no job, or exhaustion of the recursion fuel (unreachable for the fuel used by
the top-level driver, and never relied on by any theorem). -/
inductive DfsOut where
  | ok (st : TState)
  | cyc
  | key
  | fuelOut
deriving DecidableEq, Repr

/-- One `dfs(job_id)` call of `BacktrackingSolver._topological_sort`; the
dependency loop (`for dep_id in job.dependencies: if not dfs(dep_id): return
False`) is the early-exiting fold.  Note that for a `job_id` absent from
`job_dict` the source skips the dependency loop (`if job:`) but then
unconditionally executes `result.append(self.job_dict[job_id])`, which
raises `KeyError`. -/
def bt_dfs (jobs : List Job) : Nat → Nat → TState → DfsOut
  | 0, _, _ => .fuelOut
  | fuel + 1, job_id, st =>
    if job_id ∈ st.temp then .cyc
    else if job_id ∈ st.visited then .ok st
    else
      let st1 : TState := { st with temp := job_id :: st.temp }
      match job_dict_find jobs job_id with
      | some job =>
        match job.dependencies.foldl
            (fun acc d => match acc with
              | DfsOut.ok st' => bt_dfs jobs fuel d st'
              | e => e)
            (DfsOut.ok st1) with
        | .ok st2 =>
          .ok { visited := job_id :: st2.visited,
                temp := st2.temp.erase job_id,
                result := st2.result ++ [job] }
        | e => e
      | none => .key

/-- The dependency loop of `bt_dfs` as a standalone recursion (used to reason
about the fold by induction). -/
def bt_dfs_deps (jobs : List Job) (fuel : Nat) : List Nat → TState → DfsOut
  | [], st => .ok st
  | d :: ds, st =>
    match bt_dfs jobs fuel d st with
    | .ok st' => bt_dfs_deps jobs fuel ds st'
    | e => e

/-- Result of a whole topological sort: the job order, a detected cycle
(Python `return None`), a raised `KeyError`, or fuel exhaustion. -/
inductive TopoOut where
  | ok (res : List Job)
  | cyc
  | key
  | fuelOut
deriving DecidableEq, Repr

/-- The `for job in self.jobs: if job.id not in visited: if not dfs(job.id)`
driver loop of `BacktrackingSolver._topological_sort`. -/
def bt_topo_loop (jobs : List Job) (fuel : Nat) : List Job → TState → TopoOut
  | [], st => .ok st.result
  | j :: js, st =>
    if j.id ∈ st.visited then bt_topo_loop jobs fuel js st
    else
      match bt_dfs jobs fuel j.id st with
      | .ok st' => bt_topo_loop jobs fuel js st'
      | .cyc => .cyc
      | .key => .key
      | .fuelOut => .fuelOut

/-- Recursion fuel: one more than the number of id occurrences in the input;
the `temp` set gains a fresh id at every nested `dfs` call, and every id
encountered occurs in the input, so this bound is never reached. -/
def topo_fuel (jobs : List Job) : Nat :=
  (jobs.map Job.id ++ jobs.flatMap Job.dependencies).length + 1

/-- `BacktrackingSolver._topological_sort`. -/
def bt_topological_sort (jobs : List Job) : TopoOut :=
  bt_topo_loop jobs (topo_fuel jobs) jobs ⟨[], [], []⟩

/-- One `dfs(job_id)` call of `CulturalAlgorithm._topological_sort`.  This
variant returns `True` for an id absent from `job_dict` (`if not job: return
True`) - note it does so before `temp.remove`, so the missing id stays in the
in-progress set - and appends the found `job` object, so it cannot raise. -/
def ca_dfs (jobs : List Job) : Nat → Nat → TState → DfsOut
  | 0, _, _ => .fuelOut
  | fuel + 1, job_id, st =>
    if job_id ∈ st.temp then .cyc
    else if job_id ∈ st.visited then .ok st
    else
      let st1 : TState := { st with temp := job_id :: st.temp }
      match job_dict_find jobs job_id with
      | none => .ok st1
      | some job =>
        match job.dependencies.foldl
            (fun acc d => match acc with
              | DfsOut.ok st' => ca_dfs jobs fuel d st'
              | e => e)
            (DfsOut.ok st1) with
        | .ok st2 =>
          .ok { visited := job_id :: st2.visited,
                temp := st2.temp.erase job_id,
                result := st2.result ++ [job] }
        | e => e

/-- The dependency loop of `ca_dfs` as a standalone recursion. -/
def ca_dfs_deps (jobs : List Job) (fuel : Nat) : List Nat → TState → DfsOut
  | [], st => .ok st
  | d :: ds, st =>
    match ca_dfs jobs fuel d st with
    | .ok st' => ca_dfs_deps jobs fuel ds st'
    | e => e

/-- The driver loop of `CulturalAlgorithm._topological_sort`. -/
def ca_topo_loop (jobs : List Job) (fuel : Nat) : List Job → TState → TopoOut
  | [], st => .ok st.result
  | j :: js, st =>
    if j.id ∈ st.visited then ca_topo_loop jobs fuel js st
    else
      match ca_dfs jobs fuel j.id st with
      | .ok st' => ca_topo_loop jobs fuel js st'
      | .cyc => .cyc
      | .key => .key
      | .fuelOut => .fuelOut

/-- `CulturalAlgorithm._topological_sort`. -/
def ca_topological_sort (jobs : List Job) : TopoOut :=
  ca_topo_loop jobs (topo_fuel jobs) jobs ⟨[], [], []⟩

/-- Maximum of a per-machine triple (`max(machine_times)`). -/
def max3 (t : M3 Nat) : Nat := max (max t.c0 t.c1) t.c2

/-- Mutable state of the greedy pass in `BacktrackingSolver.solve`:
`machine_times`, `machine_schedules` and `self.capacity_violations`. -/
structure GState where
  machine_times : M3 Nat
  machine_schedules : M3 (List Entry)
  capacity_violations : List Viol
deriving DecidableEq, Repr

/-- `min(range(self.num_machines), key=lambda m: machine_times[m])`: the
least-loaded machine, ties broken by the lowest index (Python `min` keeps the
first minimiser). -/
def min_machine (t : M3 Nat) : Nat :=
  if t.c0 ≤ t.c1 ∧ t.c0 ≤ t.c2 then 0
  else if t.c1 ≤ t.c2 then 1
  else 2

/-- Place one chunk of `j` of the given size in `BacktrackingSolver.solve`:
pick the least-loaded machine, start at `max(current, machine_times[m])`,
record a capacity violation if the end exceeds the fixed capacity, and
return the chunk end time together with the updated state. -/
def place_chunk (j : Job) (size current : Nat) (st : GState) : Nat × GState :=
  let m := min_machine st.machine_times
  let start_time := max current (st.machine_times.get m)
  let end_time := start_time + size
  let viols :=
    if end_time > FIXED_MACHINE_CAPACITY then
      st.capacity_violations ++
        [⟨j.id, j.name, m, size, end_time - FIXED_MACHINE_CAPACITY, start_time, end_time⟩]
    else st.capacity_violations
  (end_time,
   { machine_times := st.machine_times.set m end_time,
     machine_schedules :=
       st.machine_schedules.set m (st.machine_schedules.get m ++ [⟨j, start_time, end_time, size⟩]),
     capacity_violations := viols })

/-- The `for i, chunk_size in enumerate(final_sizes)` loop of
`BacktrackingSolver.solve`; `current` is the job's running time
(`current_time = end_time` after each chunk). -/
def place_chunks (j : Job) : List Nat → Nat → GState → GState
  | [], _, st => st
  | size :: rest, current, st =>
    let p := place_chunk j size current st
    place_chunks j rest p.1 p.2

/-- Inner scan of one machine schedule for the dependency end-time search in
`BacktrackingSolver.solve` (`if dep_job.id == dep_id: earliest_start = max(...)`). -/
def scan_dep_end (dep_id : Nat) (sched : List Entry) (acc : Nat) : Nat :=
  sched.foldl (fun a e => if e.job.id = dep_id then max a e.stop else a) acc

/-- `earliest_start`: maximum end time over all already-scheduled chunks of
the job's dependencies, scanning the three machine schedules in order. -/
def earliest_start_of (deps : List Nat) (scheds : M3 (List Entry)) : Nat :=
  deps.foldl (fun acc d => scan_dep_end d scheds.c2 (scan_dep_end d scheds.c1 (scan_dep_end d scheds.c0 acc))) 0

/-- Processing of one job inside `BacktrackingSolver.solve`: compute
`earliest_start`, split the job if its duration exceeds `MAX_CHUNK_SIZE`
(the inline split computes exactly `create_intelligent_split_sizes`), and
place the chunks greedily; an in-range job is placed directly with
`start_time = max(earliest_start, machine_times[min_machine])`, which is the
single-chunk instance of `place_chunks`. -/
def bt_process_job (j : Job) (st : GState) : GState :=
  let earliest_start := earliest_start_of j.dependencies st.machine_schedules
  if j.duration > MAX_CHUNK_SIZE then
    place_chunks j (create_intelligent_split_sizes j.duration) earliest_start st
  else
    place_chunks j [j.duration] earliest_start st

/-- The `for job in topological` scheduling loop of `BacktrackingSolver.solve`. -/
def bt_schedule_loop : List Job → GState → GState
  | [], st => st
  | j :: js, st => bt_schedule_loop js (bt_process_job j st)

/-- One step of `_calc_splits` / `_calculate_splits_info`:
`splits[job.id] = splits.get(job.id, 0) + 1` on an insertion-ordered dict. -/
def bump_split (s : List (Nat × Nat)) (id : Nat) : List (Nat × Nat) :=
  if (s.find? (fun p => p.1 = id)).isSome then
    s.map (fun p => if p.1 = id then (p.1, p.2 + 1) else p)
  else s ++ [(id, 1)]

/-- `_calc_splits` / `_calculate_splits_info`: per-job chunk counts, machines
scanned in order. -/
def calc_splits (scheds : M3 (List Entry)) : List (Nat × Nat) :=
  ((scheds.c0 ++ scheds.c1 ++ scheds.c2).map (fun e => e.job.id)).foldl bump_split []

/-- One machine-tagged tuple `(machine_id, start, end, job, size)` collected
by `_build_final`. -/
structure MEntry where
  machine : Nat
  start : Nat
  stop : Nat
  job : Job
  size : Nat
deriving DecidableEq, Repr

/-- Append one tuple to `job_chunks[job.id]` keeping dict insertion order. -/
def group_push (g : List (Nat × List MEntry)) (id : Nat) (me : MEntry) :
    List (Nat × List MEntry) :=
  if (g.find? (fun p => p.1 = id)).isSome then
    g.map (fun p => if p.1 = id then (p.1, p.2 ++ [me]) else p)
  else g ++ [(id, [me])]

/-- The `job_chunks` grouping built by both `_build_final` methods: all
placed chunks tagged with their machine, grouped by job id in encounter
order. -/
def job_chunks_of (scheds : M3 (List Entry)) : List (Nat × List MEntry) :=
  let all :=
    scheds.c0.map (fun e => MEntry.mk 0 e.start e.stop e.job e.size) ++
    scheds.c1.map (fun e => MEntry.mk 1 e.start e.stop e.job e.size) ++
    scheds.c2.map (fun e => MEntry.mk 2 e.start e.stop e.job e.size)
  all.foldl (fun g me => group_push g me.job.id me) []

/-- Shared tail of the two `_build_final` methods: given each job's chunk
list already sorted by the method's key, number the chunks 1-based, append
each to its machine's list, and finally sort every machine list by start
time. -/
def build_final_from (groups : List (Nat × List MEntry)) : List (List TaskChunk) :=
  let final :=
    groups.foldl
      (fun fin p =>
        let total := p.2.length
        (p.2.enum).foldl
          (fun fin ip =>
            fin.set ip.2.machine
              (fin.get ip.2.machine ++
                [⟨ip.2.job, ip.2.machine, ip.2.start, ip.2.stop, ip.1 + 1, total, ip.2.size⟩]))
          fin)
      (M3.fill ([] : List TaskChunk))
  [ List.insertionSort (fun a b => a.start ≤ b.start) final.c0,
    List.insertionSort (fun a b => a.start ≤ b.start) final.c1,
    List.insertionSort (fun a b => a.start ≤ b.start) final.c2 ]

/-- `BacktrackingSolver._build_final`: chunks of a job ordered by start time
(`chunks.sort(key=lambda x: x[1])`; `insertionSort` is stable like Python's
sort). -/
def bt_build_final (scheds : M3 (List Entry)) : List (List TaskChunk) :=
  build_final_from
    ((job_chunks_of scheds).map
      (fun p => (p.1, List.insertionSort (fun a b => a.start ≤ b.start) p.2)))

/-- `CulturalAlgorithm._build_final`: chunks of a job ordered by end time
(`chunks.sort(key=lambda x: x[2])`). -/
def ca_build_final (scheds : M3 (List Entry)) : List (List TaskChunk) :=
  build_final_from
    ((job_chunks_of scheds).map
      (fun p => (p.1, List.insertionSort (fun a b => a.stop ≤ b.stop) p.2)))

/-- `BacktrackingSolver.solve`.  The value `Except.error ()` models a raised
exception escaping `solve` (the `KeyError` of `_topological_sort` on a
missing dependency id); `fuelOut` is unreachable for `topo_fuel` and mapped
to the same error, and no theorem depends on that case. -/
def backtracking_solve (jobs : List Job) : Except Unit ScheduleResult :=
  match jobs.find? (fun job => decide (job.duration > FIXED_MACHINE_CAPACITY)) with
  | some job => .ok (create_capacity_error_result (capacity_error_msg job))
  | none =>
    match bt_topological_sort jobs with
    | .cyc => .ok create_error_result
    | .key => .error ()
    | .fuelOut => .error ()
    | .ok topological =>
      let st := bt_schedule_loop topological ⟨M3.fill 0, M3.fill [], []⟩
      let makespan := max3 st.machine_times
      .ok { success := true,
            makespan := (makespan : ℚ),
            schedule := bt_build_final st.machine_schedules,
            splits_info := calc_splits st.machine_schedules,
            capacity_violations := some st.capacity_violations }

/-- One chunk descriptor of a chromosome: the dicts
`{'machine': ..., 'size': ..., 'order': ...}`. -/
structure ChunkG where
  machine : Nat
  size : Nat
  order : Nat
deriving DecidableEq, Repr

/-- A chromosome: the insertion-ordered dict from job id to chunk list. -/
abbrev Chromosome := List (Nat × List ChunkG)

/-- Simulation state of `_evaluate_chromosome`: machine busy times, machine
schedules, the `completed` dict (newest binding first, as overwriting
lookup), and the violation list.  The local `machine_loads` array of the
source is written but never read, so it is not modelled. -/
structure SimState where
  m_times : M3 Nat
  m_scheds : M3 (List Entry)
  completed : List (Nat × Nat)
  violations : List Viol
deriving DecidableEq, Repr

/-- The leading feasibility check of `_evaluate_chromosome`: per chromosome
entry, compare the chunk-size sum with the job's duration (raising `KeyError`
- modelled as `none` - when the id is not in `job_dict`) and reject any chunk
larger than `MAX_CHUNK_SIZE`.  `some false` is `return float('inf'), [], []`. -/
def size_check (jobs : List Job) : Chromosome → Option Bool
  | [] => some true
  | (job_id, chunks) :: rest =>
    match job_dict_find jobs job_id with
    | none => none
    | some job =>
      if (chunks.map ChunkG.size).sum ≠ job.duration then some false
      else if chunks.any (fun c => decide (c.size > MAX_CHUNK_SIZE)) then some false
      else size_check jobs rest

/-- The dependency scan at the head of the job loop of
`_evaluate_chromosome`: fold the completed end times of the dependencies,
failing (`return float('inf')`) on a dependency not yet completed. -/
def dep_start_time (completed : List (Nat × Nat)) : List Nat → Nat → Option Nat
  | [], acc => some acc
  | d :: ds, acc =>
    match completed.find? (fun p => p.1 = d) with
    | some p => dep_start_time completed ds (max acc p.2)
    | none => none

/-- The chunk loop of `_evaluate_chromosome` for one job: place each chunk on
its encoded machine at `max(current_time, m_times[machine])`, recording
capacity violations; returns the final `current_time` and the new state. -/
def sim_place_chunks (j : Job) : List ChunkG → Nat → SimState → Nat × SimState
  | [], current, st => (current, st)
  | c :: cs, current, st =>
    let machine := c.machine
    let size := c.size
    let chunk_start := max current (st.m_times.get machine)
    let chunk_end := chunk_start + size
    let viols :=
      if chunk_end > FIXED_MACHINE_CAPACITY then
        st.violations ++
          [⟨j.id, j.name, machine, size, chunk_end - FIXED_MACHINE_CAPACITY, chunk_start, chunk_end⟩]
      else st.violations
    sim_place_chunks j cs chunk_end
      { st with
        m_times := st.m_times.set machine chunk_end,
        m_scheds := st.m_scheds.set machine (st.m_scheds.get machine ++ [⟨j, chunk_start, chunk_end, size⟩]),
        violations := viols }

/-- `chrom.get(job.id, [])`: the chunk list of a job in a chromosome. -/
def job_chunks_lookup (chrom : Chromosome) (id : Nat) : List ChunkG :=
  match chrom.find? (fun p => p.1 = id) with
  | some p => p.2
  | none => []

/-- The `for job in order` simulation loop of `_evaluate_chromosome`:
`none` models the `return float('inf'), [], []` exits (incomplete dependency
or empty chunk list). -/
def sim_jobs (chrom : Chromosome) : List Job → SimState → Option SimState
  | [], st => some st
  | job :: rest, st =>
    match dep_start_time st.completed job.dependencies 0 with
    | none => none
    | some start_time =>
      let chunks := job_chunks_lookup chrom job.id
      if chunks.isEmpty then none
      else
        let sorted_chunks := List.insertionSort (fun a b => a.order ≤ b.order) chunks
        let r := sim_place_chunks job sorted_chunks start_time st
        sim_jobs chrom rest
          { r.2 with completed := (job.id, r.1) :: r.2.completed }

/-- Total work of one machine schedule (`sum(size for _, _, _, size in sched)`). -/
def sched_work (sched : List Entry) : Nat := (sched.map Entry.size).sum

/-- The fitness computation at the tail of `_evaluate_chromosome`, evaluated
on the final simulation state (floats modelled as `ℚ`). -/
def eval_fitness (st : SimState) : ℚ :=
  let makespan : ℚ := (max3 st.m_times : ℚ)
  let violation_penalty : ℚ := (st.violations.length : ℚ) * 10
  let total_machine_time : ℚ := makespan * (NUM_MACHINES : ℚ)
  let total_work : ℚ :=
    ((sched_work st.m_scheds.c0 + sched_work st.m_scheds.c1 + sched_work st.m_scheds.c2 : Nat) : ℚ)
  let efficiency : ℚ := if total_machine_time > 0 then total_work / total_machine_time else 0
  let penalty : ℚ := (1 - efficiency) * makespan * 0.4
  let u0 : ℚ := (sched_work st.m_scheds.c0 : ℚ) / ((max 1 st.m_times.c0 : Nat) : ℚ)
  let u1 : ℚ := (sched_work st.m_scheds.c1 : ℚ) / ((max 1 st.m_times.c1 : Nat) : ℚ)
  let u2 : ℚ := (sched_work st.m_scheds.c2 : ℚ) / ((max 1 st.m_times.c2 : Nat) : ℚ)
  let load_balance_penalty : ℚ := (max (max u0 u1) u2 - min (min u0 u1) u2) * makespan * 0.2
  makespan + penalty + load_balance_penalty + violation_penalty

/-- Outcome of `_evaluate_chromosome`: a raised `KeyError` (chromosome key
absent from `job_dict`), the infeasible return `(float('inf'), [], [])`, or
the fitness with the final simulation state. -/
inductive EvalOut where
  | key
  | infeasible
  | ok (fitness : ℚ) (st : SimState)
deriving DecidableEq, Repr

/-- `CulturalAlgorithm._evaluate_chromosome`. -/
def evaluate_chromosome (jobs : List Job) (chrom : Chromosome) (order : List Job) : EvalOut :=
  match size_check jobs chrom with
  | none => .key
  | some false => .infeasible
  | some true =>
    match sim_jobs chrom order ⟨M3.fill 0, M3.fill [], [], []⟩ with
    | none => .infeasible
    | some st => .ok (eval_fitness st) st

/-- One scored individual `(fitness, chromosome, schedule, violations)` as
collected in `fitness_scores`. -/
structure ScoredIndividual where
  fitness : ℚ
  chromosome : Chromosome
  schedule : M3 (List Entry)
  violations : List Viol

/-- `BeliefSpace` state.  `machine_reputation` is the nested counter dict
modelled as a total function with default `0`, matching the
`.get(m_id, 0) + 1` update. -/
structure BeliefSpace where
  global_best_chromosome : Option Chromosome
  global_best_fitness : WithTop ℚ
  global_best_schedule : Option (M3 (List Entry))
  machine_reputation : Nat → Nat → Nat
  capacity_violations_history : List Viol

/-- `BeliefSpace.__init__`. -/
def BeliefSpace.init : BeliefSpace :=
  { global_best_chromosome := none,
    global_best_fitness := ⊤,
    global_best_schedule := none,
    machine_reputation := fun _ _ => 0,
    capacity_violations_history := [] }

/-- `sorted(population_fitness_list, key=lambda x: x[0])` (Python's sort is
stable, as is `insertionSort`). -/
def sort_by_fitness (pop : List ScoredIndividual) : List ScoredIndividual :=
  List.insertionSort (fun a b => a.fitness ≤ b.fitness) pop

/-- `acceptance_count = max(1, len(sorted_pop) // 5)` (floor division). -/
def acceptance_count (n : Nat) : Nat := max 1 (n / 5)

/-- Increment the reputation counter of one (job, machine) pair. -/
def rep_bump (rep : Nat → Nat → Nat) (job_id machine : Nat) : Nat → Nat → Nat :=
  fun j m => if j = job_id ∧ m = machine then rep j m + 1 else rep j m

/-- The reputation loop of `BeliefSpace.update`: for every accepted
individual, for every job entry of its chromosome, count each chunk's chosen
machine. -/
def bump_reputation (rep : Nat → Nat → Nat) (accepted : List ScoredIndividual) :
    Nat → Nat → Nat :=
  accepted.foldl
    (fun rep ind =>
      ind.chromosome.foldl
        (fun rep p => p.2.foldl (fun rep c => rep_bump rep p.1 c.machine) rep)
        rep)
    rep

/-- The global-best replacement step of `BeliefSpace.update`: replace the
stored best (fitness, deep-copied chromosome, schedule, violation list) when
the top accepted fitness strictly improves on it. -/
def belief_update_core (bs : BeliefSpace) (current_best : ScoredIndividual) : BeliefSpace :=
  if (current_best.fitness : WithTop ℚ) < bs.global_best_fitness then
    { bs with
      global_best_fitness := (current_best.fitness : WithTop ℚ),
      global_best_chromosome := some current_best.chromosome,
      global_best_schedule := some current_best.schedule,
      capacity_violations_history := current_best.violations }
  else bs

/-- `BeliefSpace.update`.  On an empty population the source would raise
`IndexError` at `accepted_individuals[0]`; this is modelled as `none` (the
caller guards with `if not fitness_scores: continue`). -/
def belief_update (bs : BeliefSpace) (population_fitness_list : List ScoredIndividual) :
    Option BeliefSpace :=
  let sorted_pop := sort_by_fitness population_fitness_list
  let accepted_individuals := sorted_pop.take (acceptance_count sorted_pop.length)
  match accepted_individuals with
  | [] => none
  | current_best :: _ =>
    some { belief_update_core bs current_best with
           machine_reputation :=
             bump_reputation (belief_update_core bs current_best).machine_reputation
               accepted_individuals }

/-- A sequence of `BeliefSpace.update` calls within one run (one per
generation in `CulturalAlgorithm.solve`). -/
def belief_updates : List (List ScoredIndividual) → BeliefSpace → Option BeliefSpace
  | [], bs => some bs
  | pop :: rest, bs =>
    match belief_update bs pop with
    | some bs' => belief_updates rest bs'
    | none => none

/-- The evaluation pass of one generation of `CulturalAlgorithm.solve`:
score every chromosome, keeping those with finite fitness; a `KeyError`
from `_evaluate_chromosome` propagates (`Except.error`). -/
def eval_population (jobs : List Job) (order : List Job) :
    List Chromosome → Except Unit (List ScoredIndividual)
  | [] => .ok []
  | chrom :: rest =>
    match evaluate_chromosome jobs chrom order with
    | .key => .error ()
    | .infeasible => eval_population jobs order rest
    | .ok fitness st =>
      (eval_population jobs order rest).map
        (fun tail => ⟨fitness, chrom, st.m_scheds, st.violations⟩ :: tail)

/-- One generation of `CulturalAlgorithm.solve`: evaluate the population and
feed the scored, feasible individuals to `BeliefSpace.update` (skipped when
none is feasible).  `belief_update` cannot return `none` here because the
scores list is checked nonempty, and that case is mapped to an error. -/
def ca_generation (jobs order : List Job) (bs : BeliefSpace) (pop : List Chromosome) :
    Except Unit BeliefSpace :=
  match eval_population jobs order pop with
  | .error e => .error e
  | .ok fitness_scores =>
    if fitness_scores.isEmpty then .ok bs
    else
      match belief_update bs fitness_scores with
      | some bs' => .ok bs'
      | none => .error ()

/-- The generational loop of `CulturalAlgorithm.solve`.  The stochastic
population construction (initialisation, selection, crossover, mutation) is
abstracted by the `pops` parameter: the population that reaches the
evaluation step of each generation; theorems quantify over all values of it. -/
def ca_generations (jobs order : List Job) :
    List (List Chromosome) → BeliefSpace → Except Unit BeliefSpace
  | [], bs => .ok bs
  | pop :: rest, bs =>
    match ca_generation jobs order bs pop with
    | .error e => .error e
    | .ok bs' => ca_generations jobs order rest bs'

/-- `CulturalAlgorithm.solve`: the strict capacity check, the topological
sort (cyclic graphs fail with an error result), the generational loop, and
the final read-out of the belief space's global best (`if best_schedule and
best_makespan < float('inf')`). -/
def cultural_solve (jobs : List Job) (pops : List (List Chromosome)) :
    Except Unit ScheduleResult :=
  match jobs.find? (fun job => decide (job.duration > FIXED_MACHINE_CAPACITY)) with
  | some job => .ok (create_capacity_error_result (capacity_error_msg job))
  | none =>
    match ca_topological_sort jobs with
    | .cyc => .ok create_error_result
    | .key => .error ()
    | .fuelOut => .error ()
    | .ok topological_order =>
      match ca_generations jobs topological_order pops BeliefSpace.init with
      | .error e => .error e
      | .ok bs =>
        match bs.global_best_schedule with
        | none => .ok create_error_result
        | some best_schedule =>
          if bs.global_best_fitness < ⊤ then
            .ok { success := true,
                  makespan := bs.global_best_fitness.untop' 0,
                  schedule := ca_build_final best_schedule,
                  splits_info := calc_splits best_schedule,
                  capacity_violations := some bs.capacity_violations_history }
          else .ok create_error_result

/-- The fitness formula as worded by the specification (§4.4), for comparison
with `eval_fitness`: `makespan = max over machines of final busy time`,
`efficiency = totalWork / (makespan × numMachines)`, utilization per machine
`= work assigned / that machine's busy time`,
`imbalancePenalty = (maxUtil − minUtil) × makespan × 0.2`,
`inefficiencyPenalty = (1 − efficiency) × makespan × 0.4`,
`violationPenalty = 10 × violationCount`, fitness = their sum with makespan.
(Division by zero in `ℚ` yields `0`, covering the zero-makespan and
idle-machine corner cases of the spec's real-number formula.) -/
def spec_fitness (st : SimState) : ℚ :=
  let makespan : ℚ := (max3 st.m_times : ℚ)
  let totalWork : ℚ :=
    ((sched_work st.m_scheds.c0 + sched_work st.m_scheds.c1 + sched_work st.m_scheds.c2 : Nat) : ℚ)
  let efficiency : ℚ := totalWork / (makespan * (NUM_MACHINES : ℚ))
  let u0 : ℚ := (sched_work st.m_scheds.c0 : ℚ) / (st.m_times.c0 : ℚ)
  let u1 : ℚ := (sched_work st.m_scheds.c1 : ℚ) / (st.m_times.c1 : ℚ)
  let u2 : ℚ := (sched_work st.m_scheds.c2 : ℚ) / (st.m_times.c2 : ℚ)
  let inefficiencyPenalty : ℚ := (1 - efficiency) * makespan * 0.4
  let imbalancePenalty : ℚ := (max (max u0 u1) u2 - min (min u0 u1) u2) * makespan * 0.2
  let violationPenalty : ℚ := 10 * (st.violations.length : ℚ)
  makespan + inefficiencyPenalty + imbalancePenalty + violationPenalty

/-- Number of chunks assigned to machine `m` for job `j` in a chromosome
(the quantity by which `BeliefSpace.update` bumps one reputation counter). -/
def chrom_machine_count (chrom : Chromosome) (j m : Nat) : Nat :=
  (chrom.map
    (fun p => if p.1 = j then (p.2.filter (fun c => c.machine = m)).length else 0)).sum

/-- Total reputation increment for `(j, m)` over a list of individuals. -/
def accepted_machine_count (inds : List ScoredIndividual) (j m : Nat) : Nat :=
  (inds.map (fun ind => chrom_machine_count ind.chromosome j m)).sum

/-! Concrete fixtures used by the end-to-end scenarios. -/

/-- Scenario 1: three independent jobs of duration 10. -/
def jobs3 : List Job := [⟨1, "J1", 10, [], 1⟩, ⟨2, "J2", 10, [], 1⟩, ⟨3, "J3", 10, [], 1⟩]

/-- A job whose single dependency id (99) matches no job. -/
def jobA : Job := ⟨1, "A", 5, [99], 1⟩

/-- Job list with a missing dependency identifier. -/
def jobsMiss : List Job := [jobA]

/-- A chromosome for `jobsMiss`: one chunk of size 5 on machine 0 (the shape
`_create_smart_chromosome` produces for a small job). -/
def chrom1 : Chromosome := [(1, [⟨0, 5, 0⟩])]

/-- Scenario 2: one job of duration 41. -/
def jobBig : Job := ⟨7, "Big", 41, [], 1⟩

/-- Scenario 4: job B (id 2) depends on job A (id 1), duration 5 each. -/
def jobsAB : List Job := [⟨1, "A", 5, [], 1⟩, ⟨2, "B", 5, [1], 1⟩]

/-- A single scored individual with fitness 5 (belief-space fixture). -/
def popc : List ScoredIndividual := [⟨5, chrom1, M3.fill [], []⟩]

/-- One job of duration 3 (evaluator fixture). -/
def jobsW : List Job := [⟨1, "W", 3, [], 1⟩]

/-- A chromosome for `jobsW`: one chunk of size 3 on machine 0. -/
def chromW : Chromosome := [(1, [⟨0, 3, 0⟩])]

/-- Six scored individuals with fitnesses 1..6; the best has its chunk on
machine 0, the second best on machine 1, the rest on machine 2. -/
def pop6 : List ScoredIndividual :=
  [⟨1, [(1, [⟨0, 5, 0⟩])], M3.fill [], []⟩,
   ⟨2, [(1, [⟨1, 5, 0⟩])], M3.fill [], []⟩,
   ⟨3, [(1, [⟨2, 5, 0⟩])], M3.fill [], []⟩,
   ⟨4, [(1, [⟨2, 5, 0⟩])], M3.fill [], []⟩,
   ⟨5, [(1, [⟨2, 5, 0⟩])], M3.fill [], []⟩,
   ⟨6, [(1, [⟨2, 5, 0⟩])], M3.fill [], []⟩]

/-! Specification predicates for the scheduling invariants. -/

/-- All placed chunks of a schedule triple, machine 0 first (the order in
which `_analyze_schedule` and `_build_final` traverse them). -/
def all_entries (scheds : M3 (List Entry)) : List Entry :=
  scheds.c0 ++ scheds.c1 ++ scheds.c2

/-- Two placed chunks of the same job in this order do not overlap: the
first ends no later than the second starts. -/
def intra_job_ordered (a b : Entry) : Prop :=
  a.job.id = b.job.id → a.stop ≤ b.start

/-- Two placed chunks of the same job occupy disjoint, ordered time
intervals (in one of the two orders). -/
def no_overlap (a b : Entry) : Prop :=
  a.job.id = b.job.id → a.stop ≤ b.start ∨ b.stop ≤ a.start

/-- Every chunk of a schedule triple starts no earlier than the end of every
chunk of each of its job's scheduled dependencies (hence no earlier than
their maximum end time). -/
def deps_respected (scheds : M3 (List Entry)) : Prop :=
  ∀ e ∈ all_entries scheds, ∀ e' ∈ all_entries scheds,
    e'.job.id ∈ e.job.dependencies → e'.stop ≤ e.start

/-- The entries of a machine-tagged batch that belong to component `m`. -/
def picks (m : Nat) (bat : List (Nat × Entry)) : List Entry :=
  (bat.filter (fun p => p.1 = m)).map Prod.snd

/-- A job ordering is dependency-sound relative to the ids in `seen`: every
job's dependencies appear among `seen` or among the ids of earlier jobs. -/
def topo_sound (seen : List Nat) : List Job → Prop
  | [] => True
  | j :: rest => (∀ d ∈ j.dependencies, d ∈ seen) ∧ topo_sound (j.id :: seen) rest

/-- Invariant of the depth-first topological sort state: `visited` mirrors
the ids of `result` (newest first), is duplicate-free and disjoint from the
in-progress set, and `result` is dependency-sound. -/
def TInv (st : TState) : Prop :=
  st.visited = (st.result.map Job.id).reverse ∧
  st.visited.Nodup ∧
  (∀ t ∈ st.temp, t ∉ st.visited) ∧
  topo_sound [] st.result

/-! Theorems.  Helper lemmas come first; each claim of the review has exactly
one main theorem named `C<n>_...`. -/

lemma range_map_ite (x y : Nat) :
    ∀ (k r : Nat), r ≤ k →
      (List.range k).map (fun i => if i < r then x else y) =
        List.replicate r x ++ List.replicate (k - r) y := by
  intro k
  induction k with
  | zero =>
    intro r hr
    interval_cases r
    simp
  | succ k ih =>
    intro r hr
    rw [List.range_succ, List.map_append]
    rcases Nat.lt_or_ge r (k + 1) with h | h
    · have hrk : r ≤ k := Nat.lt_succ_iff.mp h
      rw [ih r hrk]
      have hky : (if k < r then x else y) = y := by
        have : ¬ k < r := Nat.not_lt.mpr hrk
        simp [this]
      simp only [List.map_cons, List.map_nil, hky]
      rw [List.append_assoc]
      have : List.replicate (k - r) y ++ [y] = List.replicate (k + 1 - r) y := by
        rw [← List.replicate_succ']
        congr 1
        omega
      rw [this]
    · have hr1 : r = k + 1 := Nat.le_antisymm hr h
      subst hr1
      have hmap : (List.range k).map (fun i => if i < k + 1 then x else y) =
          (List.range k).map (fun _ => x) := by
        apply List.map_congr_left
        intro a ha
        have : a < k := List.mem_range.mp ha
        simp [Nat.lt_succ_of_lt this]
      rw [hmap]
      have hkx : (if k < k + 1 then x else y) = x := by simp
      simp only [List.map_cons, List.map_nil, hkx, List.map_const', List.length_range]
      rw [Nat.sub_self]
      simp [← List.replicate_succ']
lemma num_chunks_pos (d : Nat) (hd : 1 ≤ d) : 1 ≤ (d + 4) / 5 := by omega

lemma le_five_mul_num_chunks (d : Nat) : d ≤ 5 * ((d + 4) / 5) := by omega

lemma base_le_five (d : Nat) (hd : 1 ≤ d) : d / ((d + 4) / 5) ≤ 5 := by
  set k := (d + 4) / 5 with hk
  have hk1 : 1 ≤ k := num_chunks_pos d hd
  have h5 : d ≤ 5 * k := le_five_mul_num_chunks d
  have : d / k < 6 := by
    rw [Nat.div_lt_iff_lt_mul (by omega : 0 < k)]
    omega
  omega

lemma base_lt_five_of_mod_pos (d : Nat) (hd : 1 ≤ d)
    (hr : 0 < d % ((d + 4) / 5)) : d / ((d + 4) / 5) < 5 := by
  set k := (d + 4) / 5 with hk
  have hk1 : 1 ≤ k := num_chunks_pos d hd
  have h5 : d ≤ 5 * k := le_five_mul_num_chunks d
  have hne : d ≠ 5 * k := by
    intro h
    rw [h] at hr
    rw [Nat.mul_mod_left] at hr
    exact Nat.lt_irrefl 0 hr
  rw [Nat.div_lt_iff_lt_mul (by omega : 0 < k)]
  omega

lemma initial_sizes_eq (d : Nat) (hd : 1 ≤ d) :
    initial_sizes d =
      List.replicate (d % ((d + 4) / 5)) (d / ((d + 4) / 5) + 1) ++
        List.replicate ((d + 4) / 5 - d % ((d + 4) / 5)) (d / ((d + 4) / 5)) := by
  have h45 : d + MAX_CHUNK_SIZE - 1 = d + 4 := by simp [MAX_CHUNK_SIZE]
  have hk1 : 1 ≤ (d + 4) / 5 := num_chunks_pos d hd
  have hrk : d % ((d + 4) / 5) ≤ (d + 4) / 5 :=
    Nat.le_of_lt (Nat.mod_lt d (by omega))
  simp only [initial_sizes, MAX_CHUNK_SIZE, h45]
  exact range_map_ite _ _ _ _ hrk

lemma initial_sizes_le (d : Nat) (hd : 1 ≤ d) :
    ∀ s ∈ initial_sizes d, s ≤ MAX_CHUNK_SIZE := by
  intro s hs
  rw [initial_sizes_eq d hd] at hs
  rcases List.mem_append.mp hs with h | h
  · have hmem := List.eq_of_mem_replicate h
    have hr : 0 < d % ((d + 4) / 5) := by
      rcases Nat.eq_zero_or_pos (d % ((d + 4) / 5)) with h0 | h0
      · rw [h0] at h; simp at h
      · exact h0
    have := base_lt_five_of_mod_pos d hd hr
    simp [MAX_CHUNK_SIZE, hmem]
    omega
  · have hmem := List.eq_of_mem_replicate h
    have := base_le_five d hd
    simp [MAX_CHUNK_SIZE, hmem]
    omega

lemma flatMap_id_of_le (l : List Nat) (h : ∀ s ∈ l, s ≤ MAX_CHUNK_SIZE) :
    (l.flatMap fun size => if size > MAX_CHUNK_SIZE then sub_split size else [size]) = l := by
  induction l with
  | nil => simp
  | cons a t ih =>
    rw [List.flatMap_cons]
    have ha : ¬ a > MAX_CHUNK_SIZE := Nat.not_lt.mpr (h a (List.mem_cons_self a t))
    rw [if_neg ha, ih (fun s hs => h s (List.mem_cons_of_mem a hs))]
    rfl

lemma create_intelligent_split_sizes_eq (d : Nat) (hd : 1 ≤ d) :
    create_intelligent_split_sizes d =
      List.replicate (d % ((d + 4) / 5)) (d / ((d + 4) / 5) + 1) ++
        List.replicate ((d + 4) / 5 - d % ((d + 4) / 5)) (d / ((d + 4) / 5)) := by
  rw [create_intelligent_split_sizes, flatMap_id_of_le _ (initial_sizes_le d hd)]
  exact initial_sizes_eq d hd

/-- C2: for every job with positive duration, the chunk decomposition returns
exactly `ceil(duration/5)` chunk sizes whose sum equals the job's duration,
with the first `duration mod ceil(duration/5)` sizes one unit larger than the
rest, every size at most 5; a job with duration at most 5 decomposes to a
single chunk equal to its duration.  (`(d + 4) / 5` is `ceil(d / 5)` on `Nat`.) -/
theorem C2_chunk_decomposition (d : Nat) (hd : 0 < d) :
    create_intelligent_split_sizes d =
        List.replicate (d % ((d + 4) / 5)) (d / ((d + 4) / 5) + 1) ++
          List.replicate ((d + 4) / 5 - d % ((d + 4) / 5)) (d / ((d + 4) / 5)) ∧
    (create_intelligent_split_sizes d).length = (d + 4) / 5 ∧
    (create_intelligent_split_sizes d).sum = d ∧
    (∀ s ∈ create_intelligent_split_sizes d, s ≤ MAX_CHUNK_SIZE) ∧
    (d ≤ MAX_CHUNK_SIZE → create_intelligent_split_sizes d = [d]) := by
  have heq := create_intelligent_split_sizes_eq d hd
  have hk1 : 1 ≤ (d + 4) / 5 := num_chunks_pos d hd
  have hrk : d % ((d + 4) / 5) < (d + 4) / 5 := Nat.mod_lt d (by omega)
  have hdm : ((d + 4) / 5) * (d / ((d + 4) / 5)) + d % ((d + 4) / 5) = d :=
    Nat.div_add_mod d ((d + 4) / 5)
  refine ⟨heq, ?_, ?_, ?_, ?_⟩
  · rw [heq]
    simp only [List.length_append, List.length_replicate]
    omega
  · rw [heq, List.sum_append, List.sum_replicate, List.sum_replicate, smul_eq_mul, smul_eq_mul]
    rw [Nat.mul_succ, Nat.sub_mul]
    have h1 : d % ((d + 4) / 5) * (d / ((d + 4) / 5)) ≤ ((d + 4) / 5) * (d / ((d + 4) / 5)) :=
      Nat.mul_le_mul_right _ (Nat.le_of_lt hrk)
    omega
  · rw [create_intelligent_split_sizes, flatMap_id_of_le _ (initial_sizes_le d hd)]
    exact initial_sizes_le d hd
  · intro hle
    have hk : (d + 4) / 5 = 1 := by
      simp only [MAX_CHUNK_SIZE] at hle
      omega
    rw [heq, hk]
    simp [Nat.mod_one]

/-- Witness for C2 at the spec's example duration 12: three chunks `[4,4,4]`
summing to 12. -/
theorem C2_chunk_decomposition_witness :
    0 < 12 ∧ (create_intelligent_split_sizes 12).sum = 12 ∧
      create_intelligent_split_sizes 12 = [4, 4, 4] :=
  ⟨by decide, (C2_chunk_decomposition 12 (by decide)).2.2.1, by decide⟩

/-- C4: a job whose duration alone exceeds the fixed capacity makes both
solvers return - before any decomposition, topological sort or scheduling,
and for every possible population draw - the structured capacity failure:
`success = false`, empty schedule, makespan 0, and an error message naming
the first offending job. -/
theorem C4_capacity_exceeded (jobs : List Job) (pops : List (List Chromosome))
    (h : ∃ j ∈ jobs, FIXED_MACHINE_CAPACITY < j.duration) :
    ∃ j₀, jobs.find? (fun job => decide (job.duration > FIXED_MACHINE_CAPACITY)) = some j₀ ∧
      FIXED_MACHINE_CAPACITY < j₀.duration ∧
      backtracking_solve jobs = .ok (create_capacity_error_result (capacity_error_msg j₀)) ∧
      cultural_solve jobs pops = .ok (create_capacity_error_result (capacity_error_msg j₀)) ∧
      (create_capacity_error_result (capacity_error_msg j₀)).success = false ∧
      (create_capacity_error_result (capacity_error_msg j₀)).schedule = [] ∧
      (create_capacity_error_result (capacity_error_msg j₀)).makespan = 0 ∧
      (create_capacity_error_result (capacity_error_msg j₀)).error_message =
        some (capacity_error_msg j₀) := by
  obtain ⟨j, hj, hd⟩ := h
  have hsome : (jobs.find? (fun job => decide (job.duration > FIXED_MACHINE_CAPACITY))).isSome := by
    rw [List.find?_isSome]
    exact ⟨j, hj, by simpa using hd⟩
  obtain ⟨j₀, hfind⟩ := Option.isSome_iff_exists.mp hsome
  have hj₀ : FIXED_MACHINE_CAPACITY < j₀.duration := by
    have := List.find?_some hfind
    simpa using this
  refine ⟨j₀, hfind, hj₀, ?_, ?_, rfl, rfl, rfl, rfl⟩
  · rw [backtracking_solve, hfind]
  · rw [cultural_solve, hfind]

/-- Witness for C4 at scenario 2 (one job of duration 41), with the empty
population sequence for the cultural side. -/
theorem C4_capacity_exceeded_witness :
    (∃ j ∈ [jobBig], FIXED_MACHINE_CAPACITY < j.duration) ∧
    (∃ j₀, [jobBig].find? (fun job => decide (job.duration > FIXED_MACHINE_CAPACITY)) = some j₀ ∧
      FIXED_MACHINE_CAPACITY < j₀.duration ∧
      backtracking_solve [jobBig] = .ok (create_capacity_error_result (capacity_error_msg j₀)) ∧
      cultural_solve [jobBig] [] = .ok (create_capacity_error_result (capacity_error_msg j₀)) ∧
      (create_capacity_error_result (capacity_error_msg j₀)).success = false ∧
      (create_capacity_error_result (capacity_error_msg j₀)).schedule = [] ∧
      (create_capacity_error_result (capacity_error_msg j₀)).makespan = 0 ∧
      (create_capacity_error_result (capacity_error_msg j₀)).error_message =
        some (capacity_error_msg j₀)) :=
  ⟨⟨jobBig, by decide, by decide⟩,
   C4_capacity_exceeded [jobBig] [] ⟨jobBig, by decide, by decide⟩⟩

/-- C1 counterexample: on three independent jobs of duration 10 the greedy
scheduler returns makespan 15, not 10, and two chunks per job, not one
(each duration-10 job is split because `MAX_CHUNK_SIZE = 5`). -/
theorem C1_counterexample :
    (backtracking_solve jobs3).toOption.map ScheduleResult.makespan = some 15 ∧
    (15 : ℚ) ≠ 10 ∧
    (backtracking_solve jobs3).toOption.map ScheduleResult.splits_info =
      some [(1, 2), (2, 2), (3, 2)] :=
  ⟨rfl, by decide, rfl⟩

/-- C1 (amended): on three independent jobs of duration 10 the greedy
scheduler succeeds with makespan 15, exactly two chunks (of size 5) per job,
zero capacity violations, and each job's two chunks on two different
machines (jobs share machines, so the jobs are not on pairwise distinct
machines). -/
theorem C1_greedy_three_jobs :
    backtracking_solve jobs3 = .ok
      { success := true,
        makespan := 15,
        schedule :=
          [ [ ⟨⟨1, "J1", 10, [], 1⟩, 0, 0, 5, 1, 2, 5⟩,
              ⟨⟨2, "J2", 10, [], 1⟩, 0, 5, 10, 2, 2, 5⟩,
              ⟨⟨3, "J3", 10, [], 1⟩, 0, 10, 15, 2, 2, 5⟩ ],
            [ ⟨⟨1, "J1", 10, [], 1⟩, 1, 5, 10, 2, 2, 5⟩ ],
            [ ⟨⟨2, "J2", 10, [], 1⟩, 2, 0, 5, 1, 2, 5⟩,
              ⟨⟨3, "J3", 10, [], 1⟩, 2, 5, 10, 1, 2, 5⟩ ] ],
        splits_info := [(1, 2), (2, 2), (3, 2)],
        capacity_violations := some [],
        error_message := none } := rfl

/-- C6: on a job list with a missing dependency identifier the
`BacktrackingSolver` raises (its `_topological_sort` executes
`result.append(self.job_dict[job_id])` for the missing id), so an exception
escapes `solve` instead of a structured `ScheduleResult` - contradicting the
documented no-exception policy that `CulturalAlgorithm._topological_sort`
implements correctly with its `if not job: return True` guard. -/
theorem C6_keyerror_escapes : backtracking_solve jobsMiss = .error () := rfl

lemma size_check_jobsMiss_ne_none (chrom : Chromosome) (h : ∀ p ∈ chrom, p.1 = 1) :
    size_check jobsMiss chrom ≠ none := by
  induction chrom with
  | nil => simp [size_check]
  | cons hd tl ih =>
    obtain ⟨jid, chunks⟩ := hd
    have h1 : jid = 1 := h _ (List.mem_cons_self _ _)
    subst h1
    have hfind : job_dict_find jobsMiss 1 = some jobA := rfl
    simp only [size_check, hfind]
    split
    · simp
    · split
      · simp
      · exact ih (fun p hp => h p (List.mem_cons_of_mem _ hp))

lemma evaluate_jobsMiss_infeasible (chrom : Chromosome) (h : ∀ p ∈ chrom, p.1 = 1) :
    evaluate_chromosome jobsMiss chrom [jobA] = .infeasible := by
  rw [evaluate_chromosome]
  rcases hsc : size_check jobsMiss chrom with _ | b
  · exact absurd hsc (size_check_jobsMiss_ne_none chrom h)
  · cases b
    · rfl
    · have hsim : sim_jobs chrom [jobA] ⟨M3.fill 0, M3.fill [], [], []⟩ = none := rfl
      rw [hsim]

lemma eval_population_jobsMiss (pop : List Chromosome)
    (h : ∀ chrom ∈ pop, ∀ p ∈ chrom, p.1 = 1) :
    eval_population jobsMiss [jobA] pop = .ok [] := by
  induction pop with
  | nil => rfl
  | cons c cs ih =>
    rw [eval_population, evaluate_jobsMiss_infeasible c (h c (List.mem_cons_self _ _))]
    exact ih (fun chrom hc => h chrom (List.mem_cons_of_mem _ hc))

lemma ca_generations_jobsMiss (pops : List (List Chromosome))
    (h : ∀ pop ∈ pops, ∀ chrom ∈ pop, ∀ p ∈ chrom, p.1 = 1) (bs : BeliefSpace) :
    ca_generations jobsMiss [jobA] pops bs = .ok bs := by
  induction pops generalizing bs with
  | nil => rfl
  | cons pop rest ih =>
    rw [ca_generations, ca_generation,
      eval_population_jobsMiss pop (h pop (List.mem_cons_self _ _))]
    exact ih (fun p hp => h p (List.mem_cons_of_mem _ hp)) bs

/-- C3 counterexample: on the job list whose only job depends on the missing
id 99, neither solver completes successfully - the backtracking solver's
topological sort raises `KeyError`, and the cultural solver (here run with
100 generations of the canonical single-chunk population, though any
population sequence gives the same result) ends with the `No valid solution
found` failure result. -/
theorem C3_counterexample :
    backtracking_solve jobsMiss = .error () ∧
    cultural_solve jobsMiss (List.replicate 100 [chrom1]) = .ok create_error_result ∧
    create_error_result.success = false :=
  ⟨rfl, rfl, rfl⟩

/-- C3 (amended): the topological sorts do treat a missing dependency id as
already satisfied, but the solvers do not complete successfully: the
cultural algorithm's evaluator treats the missing dependency as never
completed and scores every chromosome infeasible, so for every population
sequence its solve ends with the `No valid solution found` failure result,
while the backtracking solver's topological sort raises a `KeyError` on the
missing id, so its solve raises instead of returning.  (The population
hypothesis says each chromosome keys the one existing job, as every
population the algorithm builds does; a foreign key would itself raise
`KeyError` in the evaluator's size check.) -/
theorem C3_missing_dependency (pops : List (List Chromosome))
    (hpops : ∀ pop ∈ pops, ∀ chrom ∈ pop, ∀ p ∈ chrom, p.1 = 1) :
    cultural_solve jobsMiss pops = .ok create_error_result ∧
    backtracking_solve jobsMiss = .error () := by
  refine ⟨?_, rfl⟩
  have htopo : ca_topological_sort jobsMiss = .ok [jobA] := rfl
  have hfind : jobsMiss.find? (fun job => decide (job.duration > FIXED_MACHINE_CAPACITY)) = none := rfl
  simp only [cultural_solve, hfind, htopo, ca_generations_jobsMiss pops hpops BeliefSpace.init]
  rfl

/-- Witness for C3 with one generation of the canonical population. -/
theorem C3_missing_dependency_witness :
    (∀ pop ∈ [[chrom1]], ∀ chrom ∈ pop, ∀ p ∈ chrom, p.1 = 1) ∧
    (cultural_solve jobsMiss [[chrom1]] = .ok create_error_result ∧
     backtracking_solve jobsMiss = .error ()) :=
  ⟨by decide, C3_missing_dependency [[chrom1]] (by decide)⟩

lemma sort_by_fitness_sorted (pop : List ScoredIndividual) :
    List.Sorted (fun a b : ScoredIndividual => a.fitness ≤ b.fitness) (sort_by_fitness pop) := by
  letI : IsTotal ScoredIndividual (fun a b => a.fitness ≤ b.fitness) :=
    ⟨fun a b => le_total a.fitness b.fitness⟩
  letI : IsTrans ScoredIndividual (fun a b => a.fitness ≤ b.fitness) :=
    ⟨fun a b c hab hbc => le_trans hab hbc⟩
  exact List.sorted_insertionSort _ pop

lemma sort_by_fitness_perm (pop : List ScoredIndividual) :
    (sort_by_fitness pop).Perm pop :=
  List.perm_insertionSort _ pop

lemma acceptance_count_succ (n : Nat) : ∃ k, acceptance_count n = k + 1 := by
  refine ⟨acceptance_count n - 1, ?_⟩
  have : 1 ≤ acceptance_count n := le_max_left _ _
  omega

lemma belief_update_eq_of_cons (bs : BeliefSpace) (pop : List ScoredIndividual)
    (cb : ScoredIndividual) (tail : List ScoredIndividual)
    (hs : sort_by_fitness pop = cb :: tail) :
    belief_update bs pop = some
      { belief_update_core bs cb with
        machine_reputation :=
          bump_reputation (belief_update_core bs cb).machine_reputation
            ((cb :: tail).take (acceptance_count (cb :: tail).length)) } := by
  obtain ⟨k, hk⟩ := acceptance_count_succ (cb :: tail).length
  simp only [belief_update, hs, hk, List.take_succ_cons]

lemma belief_update_core_fitness (bs : BeliefSpace) (cb : ScoredIndividual) :
    (belief_update_core bs cb).global_best_fitness =
      min bs.global_best_fitness (cb.fitness : WithTop ℚ) := by
  unfold belief_update_core
  split
  · rename_i h
    simp [min_eq_right (le_of_lt h)]
  · rename_i h
    rw [not_lt] at h
    simp [min_eq_left h]

lemma belief_update_core_rep (bs : BeliefSpace) (cb : ScoredIndividual) :
    (belief_update_core bs cb).machine_reputation = bs.machine_reputation := by
  unfold belief_update_core
  split <;> rfl

lemma belief_update_core_unchanged (bs : BeliefSpace) (cb : ScoredIndividual)
    (h : ¬ (cb.fitness : WithTop ℚ) < bs.global_best_fitness) :
    belief_update_core bs cb = bs := by
  unfold belief_update_core
  rw [if_neg h]

lemma rep_bump_chunks (rep : Nat → Nat → Nat) (jid : Nat) (chunks : List ChunkG) (j m : Nat) :
    (chunks.foldl (fun rep c => rep_bump rep jid c.machine) rep) j m =
      rep j m + (if j = jid then (chunks.filter (fun c => c.machine = m)).length else 0) := by
  induction chunks generalizing rep with
  | nil => simp
  | cons c cs ih =>
    rw [List.foldl_cons, ih]
    by_cases hj : j = jid
    · subst hj
      by_cases hm : c.machine = m
      · simp only [rep_bump, List.filter_cons, hm, if_pos (And.intro rfl hm.symm)]
        simp
        omega
      · have hm' : ¬ (j = j ∧ m = c.machine) := by
          intro hc
          exact hm hc.2.symm
        simp only [rep_bump, List.filter_cons, if_neg hm', if_pos rfl]
        have hm2 : ¬ m = c.machine := fun hc => hm hc.symm
        simp [hm, hm2]
    · have hj' : ¬ (j = jid ∧ m = c.machine) := fun hc => hj hc.1
      simp [rep_bump, hj, hj']

lemma rep_bump_chrom (rep : Nat → Nat → Nat) (chrom : Chromosome) (j m : Nat) :
    (chrom.foldl (fun rep p => p.2.foldl (fun rep c => rep_bump rep p.1 c.machine) rep) rep) j m =
      rep j m + chrom_machine_count chrom j m := by
  induction chrom generalizing rep with
  | nil => simp [chrom_machine_count]
  | cons p ps ih =>
    rw [List.foldl_cons, ih, rep_bump_chunks]
    simp only [chrom_machine_count, List.map_cons, List.sum_cons]
    by_cases hp : p.1 = j
    · simp [hp, chrom_machine_count]
      omega
    · have : ¬ j = p.1 := fun hc => hp hc.symm
      simp [hp, this, chrom_machine_count]

lemma bump_reputation_apply (rep : Nat → Nat → Nat) (inds : List ScoredIndividual) (j m : Nat) :
    bump_reputation rep inds j m = rep j m + accepted_machine_count inds j m := by
  induction inds generalizing rep with
  | nil => simp [bump_reputation, accepted_machine_count]
  | cons i is ih =>
    have step := ih (i.chromosome.foldl
      (fun rep p => p.2.foldl (fun rep c => rep_bump rep p.1 c.machine) rep) rep)
    simp only [bump_reputation, List.foldl_cons] at step ⊢
    rw [step, rep_bump_chrom]
    simp [accepted_machine_count]
    omega

lemma sort_by_fitness_head_min (pop : List ScoredIndividual) (cb : ScoredIndividual)
    (tail : List ScoredIndividual) (hs : sort_by_fitness pop = cb :: tail) :
    cb ∈ pop ∧ ∀ x ∈ pop, cb.fitness ≤ x.fitness := by
  have hperm := sort_by_fitness_perm pop
  rw [hs] at hperm
  constructor
  · exact hperm.mem_iff.mp (List.mem_cons_self _ _)
  · intro x hx
    have hx' : x ∈ cb :: tail := hperm.mem_iff.mpr hx
    have hsorted := sort_by_fitness_sorted pop
    rw [hs, List.sorted_cons] at hsorted
    rcases List.mem_cons.mp hx' with h | h
    · rw [h]
    · exact hsorted.1 x h

lemma belief_update_spec (bs : BeliefSpace) (pop : List ScoredIndividual) (bs' : BeliefSpace)
    (h : belief_update bs pop = some bs') :
    (∃ m : ℚ, m ∈ pop.map ScoredIndividual.fitness ∧ (∀ x ∈ pop, m ≤ x.fitness) ∧
      bs'.global_best_fitness = min bs.global_best_fitness (m : WithTop ℚ)) ∧
    bs'.global_best_fitness ≤ bs.global_best_fitness ∧
    ((bs'.global_best_chromosome ≠ bs.global_best_chromosome ∨
        bs'.global_best_schedule ≠ bs.global_best_schedule) →
      bs'.global_best_fitness < bs.global_best_fitness) := by
  rcases hs : sort_by_fitness pop with _ | ⟨cb, tail⟩
  · rw [belief_update, hs] at h
    simp at h
  · rw [belief_update_eq_of_cons bs pop cb tail hs] at h
    have hbs' : bs' =
        { belief_update_core bs cb with
          machine_reputation :=
            bump_reputation (belief_update_core bs cb).machine_reputation
              ((cb :: tail).take (acceptance_count (cb :: tail).length)) } :=
      (Option.some_injective _ h).symm
    obtain ⟨hmem, hmin⟩ := sort_by_fitness_head_min pop cb tail hs
    have hfit : bs'.global_best_fitness =
        min bs.global_best_fitness (cb.fitness : WithTop ℚ) := by
      rw [hbs']
      exact belief_update_core_fitness bs cb
    refine ⟨⟨cb.fitness, List.mem_map_of_mem _ hmem, hmin, hfit⟩, ?_, ?_⟩
    · rw [hfit]
      exact min_le_left _ _
    · intro hchanged
      by_cases himp : (cb.fitness : WithTop ℚ) < bs.global_best_fitness
      · rw [hfit]
        exact lt_of_le_of_lt (min_le_right _ _) himp
      · exfalso
        have hcore := belief_update_core_unchanged bs cb himp
        rcases hchanged with hc | hc <;>
          · apply hc
            rw [hbs', hcore]

lemma belief_updates_le (calls : List (List ScoredIndividual)) (bs bs' : BeliefSpace)
    (h : belief_updates calls bs = some bs') :
    bs'.global_best_fitness ≤ bs.global_best_fitness := by
  induction calls generalizing bs with
  | nil =>
    rw [belief_updates] at h
    rw [Option.some_injective _ h]
  | cons pop rest ih =>
    rw [belief_updates] at h
    rcases hu : belief_update bs pop with _ | bs₁
    · rw [hu] at h
      simp at h
    · rw [hu] at h
      exact le_trans (ih bs₁ h) (belief_update_spec bs pop bs₁ hu).2.1

/-- C7: across any sequence of `BeliefSpace.update` calls the stored global
best fitness never increases; after each call it equals the minimum of its
previous value and the lowest fitness of that call's population, and the
stored best chromosome and schedule change only when the new fitness is
strictly smaller.  (An update call on a nonempty population always
succeeds.) -/
theorem C7_belief_monotone :
    (∀ (bs : BeliefSpace) (pop : List ScoredIndividual), pop ≠ [] →
      ∃ bs', belief_update bs pop = some bs') ∧
    (∀ (bs : BeliefSpace) (pop : List ScoredIndividual) (bs' : BeliefSpace),
      belief_update bs pop = some bs' →
      (∃ m : ℚ, m ∈ pop.map ScoredIndividual.fitness ∧ (∀ x ∈ pop, m ≤ x.fitness) ∧
        bs'.global_best_fitness = min bs.global_best_fitness (m : WithTop ℚ)) ∧
      bs'.global_best_fitness ≤ bs.global_best_fitness ∧
      ((bs'.global_best_chromosome ≠ bs.global_best_chromosome ∨
          bs'.global_best_schedule ≠ bs.global_best_schedule) →
        bs'.global_best_fitness < bs.global_best_fitness)) ∧
    (∀ (calls : List (List ScoredIndividual)) (bs bs' : BeliefSpace),
      belief_updates calls bs = some bs' →
      bs'.global_best_fitness ≤ bs.global_best_fitness) := by
  refine ⟨?_, belief_update_spec, belief_updates_le⟩
  intro bs pop hne
  rcases hs : sort_by_fitness pop with _ | ⟨cb, tail⟩
  · exfalso
    apply hne
    have := (sort_by_fitness_perm pop).length_eq
    rw [hs] at this
    exact List.eq_nil_of_length_eq_zero this.symm
  · exact ⟨_, belief_update_eq_of_cons bs pop cb tail hs⟩

/-- Witness for C7: one update call on a singleton population of fitness 5
starting from the initial belief space. -/
theorem C7_belief_monotone_witness :
    ∃ bs', belief_update BeliefSpace.init popc = some bs' ∧
      bs'.global_best_fitness =
        min BeliefSpace.init.global_best_fitness ((5 : ℚ) : WithTop ℚ) ∧
      bs'.global_best_fitness ≤ BeliefSpace.init.global_best_fitness := by
  obtain ⟨bs', hbs⟩ :=
    C7_belief_monotone.1 BeliefSpace.init popc (by simp [popc])
  obtain ⟨⟨m, hm, _, hmin⟩, hle, _⟩ := C7_belief_monotone.2.1 _ _ _ hbs
  have hm5 : m = 5 := by simpa [popc] using hm
  exact ⟨bs', hbs, by rw [hmin, hm5], hle⟩

/-- C8 counterexample: the source accepts `max(1, n // 5)` individuals
(floor division), not `max(1, ceil(n/5))`: for a population of 6 it accepts
only the single best individual, so the reputation counter of the
second-best individual's machine (machine 1) stays 0, though the claim's
`ceil(6/5) = 2` acceptance would have incremented it. -/
theorem C8_counterexample :
    acceptance_count pop6.length = 1 ∧
    max 1 ((pop6.length + 4) / 5) = 2 ∧
    (belief_update BeliefSpace.init pop6).map (fun bs => bs.machine_reputation 1 0) = some 1 ∧
    (belief_update BeliefSpace.init pop6).map (fun bs => bs.machine_reputation 1 1) = some 0 :=
  ⟨rfl, rfl, rfl, rfl⟩

/-- C8 (amended): for every scored population passed to
`BeliefSpace.update`, exactly `max(1, floor(n/5))` individuals - those with
the lowest fitness after the stable ascending sort - are accepted, and each
per-job per-machine reputation counter is incremented by exactly the number
of matching chunks over the accepted individuals only. -/
theorem C8_update_acceptance (bs : BeliefSpace) (pop : List ScoredIndividual) (bs' : BeliefSpace)
    (hupd : belief_update bs pop = some bs') :
    ∃ accepted rest,
      sort_by_fitness pop = accepted ++ rest ∧
      accepted.length = acceptance_count pop.length ∧
      acceptance_count pop.length = max 1 (pop.length / 5) ∧
      pop.Perm (accepted ++ rest) ∧
      (∀ a ∈ accepted, ∀ b ∈ rest, a.fitness ≤ b.fitness) ∧
      (∀ j m, bs'.machine_reputation j m =
        bs.machine_reputation j m + accepted_machine_count accepted j m) := by
  rcases hs : sort_by_fitness pop with _ | ⟨cb, tail⟩
  · rw [belief_update, hs] at hupd
    simp at hupd
  · have hlen : pop.length = (cb :: tail).length := by
      have := (sort_by_fitness_perm pop).length_eq
      rw [hs] at this
      exact this.symm
    have hsplit : cb :: tail =
        (cb :: tail).take (acceptance_count pop.length) ++
          (cb :: tail).drop (acceptance_count pop.length) :=
      (List.take_append_drop _ _).symm
    refine ⟨(cb :: tail).take (acceptance_count pop.length),
            (cb :: tail).drop (acceptance_count pop.length),
            hsplit, ?_, rfl, ?_, ?_, ?_⟩
    · rw [List.length_take, hlen]
      have : acceptance_count (cb :: tail).length ≤ (cb :: tail).length := by
        simp only [acceptance_count, List.length_cons]
        omega
      omega
    · have := (sort_by_fitness_perm pop).symm
      rw [hs] at this
      rw [List.take_append_drop]
      exact this
    · intro a ha b hb
      have hsorted := sort_by_fitness_sorted pop
      rw [hs, ← List.take_append_drop (acceptance_count pop.length) (cb :: tail)] at hsorted
      have := (List.pairwise_append.mp hsorted).2.2
      exact this a ha b hb
    · intro j m
      rw [belief_update_eq_of_cons bs pop cb tail hs] at hupd
      have hbs' := (Option.some_injective _ hupd).symm
      rw [hbs']
      simp only []
      rw [belief_update_core_rep, bump_reputation_apply, hlen]

/-- Witness for C8 on the six-individual population. -/
theorem C8_update_acceptance_witness :
    ∃ bs', belief_update BeliefSpace.init pop6 = some bs' ∧
      ∃ accepted rest,
        sort_by_fitness pop6 = accepted ++ rest ∧
        accepted.length = acceptance_count pop6.length ∧
        acceptance_count pop6.length = max 1 (pop6.length / 5) ∧
        pop6.Perm (accepted ++ rest) ∧
        (∀ a ∈ accepted, ∀ b ∈ rest, a.fitness ≤ b.fitness) ∧
        (∀ j m, bs'.machine_reputation j m =
          BeliefSpace.init.machine_reputation j m + accepted_machine_count accepted j m) := by
  obtain ⟨bs', hbs⟩ : ∃ bs', belief_update BeliefSpace.init pop6 = some bs' := ⟨_, rfl⟩
  exact ⟨bs', hbs, C8_update_acceptance _ _ _ hbs⟩

lemma sched_work_append (l : List Entry) (e : Entry) :
    sched_work (l ++ [e]) = sched_work l + e.size := by
  simp [sched_work]

lemma sim_place_chunks_work_zero (j : Job) (chunks : List ChunkG) :
    ∀ (current : Nat) (st : SimState),
      (st.m_times.c0 = 0 → sched_work st.m_scheds.c0 = 0) →
      (st.m_times.c1 = 0 → sched_work st.m_scheds.c1 = 0) →
      (st.m_times.c2 = 0 → sched_work st.m_scheds.c2 = 0) →
      (((sim_place_chunks j chunks current st).2.m_times.c0 = 0 →
          sched_work (sim_place_chunks j chunks current st).2.m_scheds.c0 = 0) ∧
       ((sim_place_chunks j chunks current st).2.m_times.c1 = 0 →
          sched_work (sim_place_chunks j chunks current st).2.m_scheds.c1 = 0) ∧
       ((sim_place_chunks j chunks current st).2.m_times.c2 = 0 →
          sched_work (sim_place_chunks j chunks current st).2.m_scheds.c2 = 0)) := by
  induction chunks with
  | nil =>
    intro current st h0 h1 h2
    exact ⟨h0, h1, h2⟩
  | cons c cs ih =>
    intro current st h0 h1 h2
    rw [sim_place_chunks]
    rcases hm : c.machine with _ | m1
    · exact ih _ _
        (by
          intro ht
          simp only [M3.set, M3.get, hm] at ht ⊢
          rw [sched_work_append]
          show sched_work st.m_scheds.c0 + c.size = 0
          have : st.m_times.c0 = 0 := by omega
          have := h0 this
          omega)
        (by
          intro ht
          simp only [M3.set, hm] at ht ⊢
          exact h1 ht)
        (by
          intro ht
          simp only [M3.set, hm] at ht ⊢
          exact h2 ht)
    · rcases m1 with _ | m2
      · exact ih _ _
          (by
            intro ht
            simp only [M3.set, hm] at ht ⊢
            exact h0 ht)
          (by
            intro ht
            simp only [M3.set, M3.get, hm] at ht ⊢
            rw [sched_work_append]
            show sched_work st.m_scheds.c1 + c.size = 0
            have : st.m_times.c1 = 0 := by omega
            have := h1 this
            omega)
          (by
            intro ht
            simp only [M3.set, hm] at ht ⊢
            exact h2 ht)
      · exact ih _ _
          (by
            intro ht
            simp only [M3.set, hm] at ht ⊢
            exact h0 ht)
          (by
            intro ht
            simp only [M3.set, hm] at ht ⊢
            exact h1 ht)
          (by
            intro ht
            simp only [M3.set, M3.get, hm] at ht ⊢
            rw [sched_work_append]
            show sched_work st.m_scheds.c2 + c.size = 0
            have : st.m_times.c2 = 0 := by omega
            have := h2 this
            omega)

lemma sim_jobs_work_zero (chrom : Chromosome) (order : List Job) :
    ∀ (st st' : SimState), sim_jobs chrom order st = some st' →
      (st.m_times.c0 = 0 → sched_work st.m_scheds.c0 = 0) →
      (st.m_times.c1 = 0 → sched_work st.m_scheds.c1 = 0) →
      (st.m_times.c2 = 0 → sched_work st.m_scheds.c2 = 0) →
      ((st'.m_times.c0 = 0 → sched_work st'.m_scheds.c0 = 0) ∧
       (st'.m_times.c1 = 0 → sched_work st'.m_scheds.c1 = 0) ∧
       (st'.m_times.c2 = 0 → sched_work st'.m_scheds.c2 = 0)) := by
  induction order with
  | nil =>
    intro st st' hsim h0 h1 h2
    rw [sim_jobs] at hsim
    rw [← Option.some_injective _ hsim]
    exact ⟨h0, h1, h2⟩
  | cons job rest ih =>
    intro st st' hsim h0 h1 h2
    simp only [sim_jobs] at hsim
    rcases hd : dep_start_time st.completed job.dependencies 0 with _ | start_time
    · simp only [hd] at hsim
      cases hsim
    · simp only [hd] at hsim
      split at hsim
      · cases hsim
      · refine ih _ _ hsim ?_ ?_ ?_
        · exact (sim_place_chunks_work_zero job _ start_time st h0 h1 h2).1
        · exact (sim_place_chunks_work_zero job _ start_time st h0 h1 h2).2.1
        · exact (sim_place_chunks_work_zero job _ start_time st h0 h1 h2).2.2

lemma util_div_eq (w t : Nat) (h : t = 0 → w = 0) :
    (w : ℚ) / ((max 1 t : Nat) : ℚ) = (w : ℚ) / (t : ℚ) := by
  rcases Nat.eq_zero_or_pos t with ht | ht
  · rw [ht, h ht]
    simp
  · rw [Nat.max_eq_right ht]

lemma eval_fitness_eq_spec (st : SimState)
    (h0 : st.m_times.c0 = 0 → sched_work st.m_scheds.c0 = 0)
    (h1 : st.m_times.c1 = 0 → sched_work st.m_scheds.c1 = 0)
    (h2 : st.m_times.c2 = 0 → sched_work st.m_scheds.c2 = 0) :
    eval_fitness st = spec_fitness st := by
  simp only [eval_fitness, spec_fitness]
  have hu0 := util_div_eq (sched_work st.m_scheds.c0) st.m_times.c0 h0
  have hu1 := util_div_eq (sched_work st.m_scheds.c1) st.m_times.c1 h1
  have hu2 := util_div_eq (sched_work st.m_scheds.c2) st.m_times.c2 h2
  rw [hu0, hu1, hu2]
  have heff : (if ((max3 st.m_times : Nat) : ℚ) * (NUM_MACHINES : ℚ) > 0 then
          ((sched_work st.m_scheds.c0 + sched_work st.m_scheds.c1 +
              sched_work st.m_scheds.c2 : Nat) : ℚ) /
            (((max3 st.m_times : Nat) : ℚ) * (NUM_MACHINES : ℚ))
        else 0) =
      ((sched_work st.m_scheds.c0 + sched_work st.m_scheds.c1 +
          sched_work st.m_scheds.c2 : Nat) : ℚ) /
        (((max3 st.m_times : Nat) : ℚ) * (NUM_MACHINES : ℚ)) := by
    split
    · rfl
    · rename_i hnot
      rw [not_lt] at hnot
      have hnonneg : (0 : ℚ) ≤ ((max3 st.m_times : Nat) : ℚ) * (NUM_MACHINES : ℚ) := by
        positivity
      have : ((max3 st.m_times : Nat) : ℚ) * (NUM_MACHINES : ℚ) = 0 :=
        le_antisymm hnot hnonneg
      rw [this, div_zero]
  rw [heff]
  ring

/-- C9: for every feasible chromosome (machine indices in range, as the
algorithm always produces), the fitness returned by
`CulturalAlgorithm._evaluate_chromosome` equals the specification's formula
`makespan + (1 − efficiency)·makespan·0.4 +
(maxUtil − minUtil)·makespan·0.2 + 10·violationCount` with
`efficiency = totalWork / (makespan·3)` and per-machine utilization
`work / busy time` (see `spec_fitness`). -/
theorem C9_fitness_formula (jobs : List Job) (chrom : Chromosome) (order : List Job)
    (f : ℚ) (st : SimState)
    (hmach : ∀ p ∈ chrom, ∀ c ∈ p.2, c.machine < NUM_MACHINES)
    (h : evaluate_chromosome jobs chrom order = .ok f st) :
    f = spec_fitness st := by
  unfold evaluate_chromosome at h
  rcases hsc : size_check jobs chrom with _ | b
  · rw [hsc] at h
    cases h
  · rw [hsc] at h
    cases b
    · cases h
    · rcases hsim : sim_jobs chrom order ⟨M3.fill 0, M3.fill [], [], []⟩ with _ | st₀
      · rw [hsim] at h
        cases h
      · rw [hsim] at h
        have hf : f = eval_fitness st₀ ∧ st = st₀ := by
          cases h
          exact ⟨rfl, rfl⟩
        obtain ⟨hfe, hst⟩ := hf
        subst hst
        have hz := sim_jobs_work_zero chrom order _ st hsim
          (by intro _; rfl) (by intro _; rfl) (by intro _; rfl)
        rw [hfe]
        exact eval_fitness_eq_spec st hz.1 hz.2.1 hz.2.2

/-- Witness for C9: one job of duration 3 with a single chunk on machine 0;
the evaluator returns fitness `22/5`, matching the spec formula. -/
theorem C9_fitness_formula_witness :
    (∀ p ∈ chromW, ∀ c ∈ p.2, c.machine < NUM_MACHINES) ∧
    ∃ f st, evaluate_chromosome jobsW chromW jobsW = .ok f st ∧ f = spec_fitness st := by
  refine ⟨by decide, ?_⟩
  obtain ⟨f, st, h⟩ : ∃ f st, evaluate_chromosome jobsW chromW jobsW = .ok f st := ⟨_, _, rfl⟩
  exact ⟨f, st, h, C9_fitness_formula jobsW chromW jobsW f st (by decide) h⟩

lemma M3.set_c0 {α : Type} (v : M3 α) (m : Nat) (a : α) :
    (M3.set v m a).c0 = if m = 0 then a else v.c0 := by
  rcases m with _ | _ | k <;> simp [M3.set]

lemma M3.set_c1 {α : Type} (v : M3 α) (m : Nat) (a : α) :
    (M3.set v m a).c1 = if m = 1 then a else v.c1 := by
  rcases m with _ | _ | k <;> simp [M3.set]

lemma M3.set_c2 {α : Type} (v : M3 α) (m : Nat) (a : α) :
    (M3.set v m a).c2 = if m = 0 ∨ m = 1 then v.c2 else a := by
  rcases m with _ | _ | k <;> simp [M3.set]

lemma M3.get_eq {α : Type} (v : M3 α) (m : Nat) :
    v.get m = if m = 0 then v.c0 else if m = 1 then v.c1 else v.c2 := by
  rcases m with _ | _ | k <;> simp [M3.get]

lemma picks_cons (m tag : Nat) (e : Entry) (bat : List (Nat × Entry)) :
    picks m ((tag, e) :: bat) = if tag = m then e :: picks m bat else picks m bat := by
  by_cases h : tag = m <;> simp [picks, h]

lemma sim_place_chunks_spec (j : Job) (chunks : List ChunkG) :
    ∀ (current : Nat) (st : SimState),
      ∃ bat : List (Nat × Entry),
        (sim_place_chunks j chunks current st).2.m_scheds.c0 = st.m_scheds.c0 ++ picks 0 bat ∧
        (sim_place_chunks j chunks current st).2.m_scheds.c1 = st.m_scheds.c1 ++ picks 1 bat ∧
        (sim_place_chunks j chunks current st).2.m_scheds.c2 = st.m_scheds.c2 ++ picks 2 bat ∧
        (sim_place_chunks j chunks current st).2.completed = st.completed ∧
        current ≤ (sim_place_chunks j chunks current st).1 ∧
        (∀ p ∈ bat, p.2.job = j ∧ current ≤ p.2.start ∧ p.2.start ≤ p.2.stop ∧
          p.2.stop ≤ (sim_place_chunks j chunks current st).1) ∧
        bat.Pairwise (fun p q => p.2.stop ≤ q.2.start) := by
  induction chunks with
  | nil =>
    intro current st
    refine ⟨[], ?_, ?_, ?_, ?_, ?_, ?_, ?_⟩ <;> simp [sim_place_chunks, picks]
  | cons c cs ih =>
    intro current st
    have hstep : sim_place_chunks j (c :: cs) current st =
        sim_place_chunks j cs (max current (st.m_times.get c.machine) + c.size)
          { st with
            m_times := st.m_times.set c.machine
              (max current (st.m_times.get c.machine) + c.size),
            m_scheds := st.m_scheds.set c.machine
              (st.m_scheds.get c.machine ++
                [⟨j, max current (st.m_times.get c.machine),
                  max current (st.m_times.get c.machine) + c.size, c.size⟩]),
            violations :=
              if max current (st.m_times.get c.machine) + c.size > FIXED_MACHINE_CAPACITY then
                st.violations ++
                  [⟨j.id, j.name, c.machine, c.size,
                    max current (st.m_times.get c.machine) + c.size - FIXED_MACHINE_CAPACITY,
                    max current (st.m_times.get c.machine),
                    max current (st.m_times.get c.machine) + c.size⟩]
              else st.violations } := rfl
    rw [hstep]
    obtain ⟨bat', hc0, hc1, hc2, hcm, hcur, hprops, hpw⟩ :=
      ih (max current (st.m_times.get c.machine) + c.size)
        { st with
          m_times := st.m_times.set c.machine
            (max current (st.m_times.get c.machine) + c.size),
          m_scheds := st.m_scheds.set c.machine
            (st.m_scheds.get c.machine ++
              [⟨j, max current (st.m_times.get c.machine),
                max current (st.m_times.get c.machine) + c.size, c.size⟩]),
          violations :=
            if max current (st.m_times.get c.machine) + c.size > FIXED_MACHINE_CAPACITY then
              st.violations ++
                [⟨j.id, j.name, c.machine, c.size,
                  max current (st.m_times.get c.machine) + c.size - FIXED_MACHINE_CAPACITY,
                  max current (st.m_times.get c.machine),
                  max current (st.m_times.get c.machine) + c.size⟩]
            else st.violations }
    refine ⟨(if c.machine = 0 then 0 else if c.machine = 1 then 1 else 2,
             ⟨j, max current (st.m_times.get c.machine),
               max current (st.m_times.get c.machine) + c.size, c.size⟩) :: bat',
            ?_, ?_, ?_, ?_, ?_, ?_, ?_⟩
    · rw [hc0]
      by_cases hm0 : c.machine = 0
      · simp [picks_cons, hm0, M3.set_c0, M3.get_eq]
      · by_cases hm1 : c.machine = 1 <;>
          simp [picks_cons, hm0, hm1, M3.set_c0]
    · rw [hc1]
      by_cases hm0 : c.machine = 0
      · simp [picks_cons, hm0, M3.set_c1]
      · by_cases hm1 : c.machine = 1 <;>
          simp [picks_cons, hm0, hm1, M3.set_c1, M3.get_eq]
    · rw [hc2]
      by_cases hm0 : c.machine = 0
      · simp [picks_cons, hm0, M3.set_c2]
      · by_cases hm1 : c.machine = 1 <;>
          simp [picks_cons, hm0, hm1, M3.set_c2, M3.get_eq]
    · exact hcm
    · calc current ≤ max current (st.m_times.get c.machine) + c.size := by omega
        _ ≤ _ := hcur
    · intro p hp
      rcases List.mem_cons.mp hp with h | h
      · subst h
        refine ⟨rfl, ?_, ?_, ?_⟩
        · show current ≤ max current (st.m_times.get c.machine)
          omega
        · show max current (st.m_times.get c.machine) ≤
            max current (st.m_times.get c.machine) + c.size
          omega
        · exact hcur
      · obtain ⟨hj, hs, hss, hst⟩ := hprops p h
        exact ⟨hj, by omega, hss, hst⟩
    · refine List.Pairwise.cons ?_ hpw
      intro q hq
      show max current (st.m_times.get c.machine) + c.size ≤ q.2.start
      exact (hprops q hq).2.1

lemma picks_mem {m : Nat} {bat : List (Nat × Entry)} {e : Entry} (h : e ∈ picks m bat) :
    ∃ p ∈ bat, p.1 = m ∧ p.2 = e := by
  simp only [picks, List.mem_map, List.mem_filter] at h
  obtain ⟨p, ⟨hp, hm⟩, he⟩ := h
  exact ⟨p, hp, by simpa using hm, he⟩

lemma pairwise_picks {bat : List (Nat × Entry)} {R : Entry → Entry → Prop} (m : Nat)
    (h : bat.Pairwise (fun p q => R p.2 q.2)) : (picks m bat).Pairwise R := by
  unfold picks
  exact List.pairwise_map.mpr (List.Pairwise.sublist (List.filter_sublist _) h)

lemma bat_cross {bat : List (Nat × Entry)}
    (hpw : bat.Pairwise (fun p q => p.2.stop ≤ q.2.start)) {m m' : Nat} (hne : m ≠ m')
    {e e' : Entry} (he : e ∈ picks m bat) (he' : e' ∈ picks m' bat) :
    e.stop ≤ e'.start ∨ e'.stop ≤ e.start := by
  obtain ⟨p, hp, hpm, hpe⟩ := picks_mem he
  obtain ⟨q, hq, hqm, hqe⟩ := picks_mem he'
  have hpq : p ≠ q := by
    intro hcontra
    apply hne
    rw [← hpm, ← hqm, hcontra]
  have hsym : Symmetric (fun p q : Nat × Entry =>
      p.2.stop ≤ q.2.start ∨ q.2.stop ≤ p.2.start) := by
    intro a b h
    exact h.symm
  have h' : bat.Pairwise (fun p q : Nat × Entry =>
      p.2.stop ≤ q.2.start ∨ q.2.stop ≤ p.2.start) :=
    hpw.imp (fun h => Or.inl h)
  have := h'.forall hsym hp hq hpq
  subst hpe
  subst hqe
  exact this

lemma interchange_perm {α : Type} (a b c d : List α) :
    ((a ++ b) ++ (c ++ d)).Perm ((a ++ c) ++ (b ++ d)) := by
  have h := (@List.perm_append_comm _ b c).append_right d
  have h2 := h.append_left a
  have e1 : (a ++ b) ++ (c ++ d) = a ++ ((b ++ c) ++ d) := by simp [List.append_assoc]
  have e2 : a ++ ((c ++ b) ++ d) = (a ++ c) ++ (b ++ d) := by simp [List.append_assoc]
  rw [e1, ← e2]
  exact h2

lemma six_perm {α : Type} (l0 l1 l2 n0 n1 n2 : List α) :
    (((l0 ++ n0) ++ (l1 ++ n1)) ++ (l2 ++ n2)).Perm
      ((l0 ++ l1 ++ l2) ++ (n0 ++ n1 ++ n2)) := by
  have s1 : (((l0 ++ n0) ++ (l1 ++ n1)) ++ (l2 ++ n2)).Perm
      (((l0 ++ l1) ++ (n0 ++ n1)) ++ (l2 ++ n2)) :=
    (interchange_perm l0 n0 l1 n1).append_right (l2 ++ n2)
  have s2 : (((l0 ++ l1) ++ (n0 ++ n1)) ++ (l2 ++ n2)).Perm
      (((l0 ++ l1) ++ l2) ++ ((n0 ++ n1) ++ n2)) :=
    interchange_perm (l0 ++ l1) (n0 ++ n1) l2 n2
  exact s1.trans s2

lemma find?_cons_of_ne {l : List (Nat × Nat)} {x : Nat × Nat} {d : Nat} (h : ¬ x.1 = d) :
    (x :: l).find? (fun q => q.1 = d) = l.find? (fun q => q.1 = d) := by
  rw [List.find?_cons_of_neg]
  simpa using h

lemma find?_cons_isSome {l : List (Nat × Nat)} {x : Nat × Nat} {d : Nat}
    (h : (l.find? (fun q => q.1 = d)).isSome) :
    ((x :: l).find? (fun q => q.1 = d)).isSome := by
  by_cases hx : x.1 = d
  · rw [List.find?_cons_of_pos]
    · rfl
    · simpa using hx
  · rw [find?_cons_of_ne hx]
    exact h

lemma dep_start_time_spec (completed : List (Nat × Nat)) (deps : List Nat) :
    ∀ (acc s : Nat), dep_start_time completed deps acc = some s →
      acc ≤ s ∧ ∀ d ∈ deps, ∃ p : Nat × Nat,
        completed.find? (fun q => q.1 = d) = some p ∧ p.2 ≤ s := by
  induction deps with
  | nil =>
    intro acc s h
    rw [dep_start_time] at h
    refine ⟨le_of_eq (Option.some_injective _ h), ?_⟩
    intro d hd
    cases hd
  | cons d ds ih =>
    intro acc s h
    rw [dep_start_time] at h
    rcases hf : completed.find? (fun q => q.1 = d) with _ | p
    · rw [hf] at h
      cases h
    · rw [hf] at h
      obtain ⟨hacc, hrest⟩ := ih _ _ h
      refine ⟨le_trans (le_max_left _ _) hacc, ?_⟩
      intro d' hd'
      rcases List.mem_cons.mp hd' with hd' | hd'
      · subst hd'
        exact ⟨p, hf, le_trans (le_max_right _ _) hacc⟩
      · exact hrest d' hd'

lemma no_overlap_symm : Symmetric no_overlap := by
  intro a b h heq
  rcases h heq.symm with h' | h'
  · exact Or.inr h'
  · exact Or.inl h'

lemma sim_jobs_inv (chrom : Chromosome) (order : List Job) :
    ∀ (pids : List Nat) (st st' : SimState),
      sim_jobs chrom order st = some st' →
      (pids ++ order.map Job.id).Nodup →
      (∀ e ∈ all_entries st.m_scheds, e.job.id ∈ pids) →
      (∀ (d : Nat) (p : Nat × Nat), st.completed.find? (fun q => q.1 = d) = some p →
        ∀ e ∈ all_entries st.m_scheds, e.job.id = d → e.stop ≤ p.2) →
      (∀ e ∈ all_entries st.m_scheds, ∀ x ∈ e.job.dependencies,
        (st.completed.find? (fun q => q.1 = x)).isSome) →
      (∀ d : Nat, (st.completed.find? (fun q => q.1 = d)).isSome → d ∈ pids) →
      deps_respected st.m_scheds →
      (all_entries st.m_scheds).Pairwise no_overlap →
      st.m_scheds.c0.Pairwise intra_job_ordered →
      st.m_scheds.c1.Pairwise intra_job_ordered →
      st.m_scheds.c2.Pairwise intra_job_ordered →
      (deps_respected st'.m_scheds ∧
        (all_entries st'.m_scheds).Pairwise no_overlap ∧
        st'.m_scheds.c0.Pairwise intra_job_ordered ∧
        st'.m_scheds.c1.Pairwise intra_job_ordered ∧
        st'.m_scheds.c2.Pairwise intra_job_ordered) := by
  induction order with
  | nil =>
    intro pids st st' hsim hnd hE1 hE5 hE6 hE7 hE2 hE3 hE40 hE41 hE42
    rw [sim_jobs] at hsim
    rw [← Option.some_injective _ hsim]
    exact ⟨hE2, hE3, hE40, hE41, hE42⟩
  | cons job rest ih =>
    intro pids st st' hsim hnd hE1 hE5 hE6 hE7 hE2 hE3 hE40 hE41 hE42
    simp only [sim_jobs] at hsim
    rcases hd : dep_start_time st.completed job.dependencies 0 with _ | start_time
    · simp only [hd] at hsim
      cases hsim
    · simp only [hd] at hsim
      split at hsim
      · cases hsim
      · obtain ⟨bat, hc0, hc1, hc2, hcm, hcur, hprops, hpw⟩ :=
          sim_place_chunks_spec job
            (List.insertionSort (fun a b => a.order ≤ b.order) (job_chunks_lookup chrom job.id))
            start_time st
        obtain ⟨-, hdeps⟩ := dep_start_time_spec st.completed job.dependencies 0 start_time hd
        have hjob_notin : job.id ∉ pids := by
          intro hmem
          have hdisj := (List.nodup_append.mp hnd).2.2
          exact hdisj hmem (by simp)
        have hdeps_pids : ∀ d ∈ job.dependencies, d ∈ pids := by
          intro d hdm
          obtain ⟨p, hp, -⟩ := hdeps d hdm
          exact hE7 d (by rw [hp]; rfl)
        set r := sim_place_chunks job
            (List.insertionSort (fun a b => a.order ≤ b.order) (job_chunks_lookup chrom job.id))
            start_time st with hr
        have hmem_new : ∀ e, e ∈ all_entries r.2.m_scheds ↔
            e ∈ all_entries st.m_scheds ∨
              (e ∈ picks 0 bat ∨ e ∈ picks 1 bat ∨ e ∈ picks 2 bat) := by
          intro e
          simp only [all_entries, hc0, hc1, hc2, List.mem_append]
          tauto
        have hbatch_props : ∀ e, (e ∈ picks 0 bat ∨ e ∈ picks 1 bat ∨ e ∈ picks 2 bat) →
            e.job = job ∧ start_time ≤ e.start ∧ e.start ≤ e.stop ∧ e.stop ≤ r.1 := by
          intro e he
          have get_props : ∀ m, e ∈ picks m bat →
              e.job = job ∧ start_time ≤ e.start ∧ e.start ≤ e.stop ∧ e.stop ≤ r.1 := by
            intro m hm
            obtain ⟨p, hp, -, hpe⟩ := picks_mem hm
            rw [← hpe]
            exact hprops p hp
          rcases he with h | h | h
          · exact get_props 0 h
          · exact get_props 1 h
          · exact get_props 2 h
        refine ih (pids ++ [job.id]) _ st' hsim ?_ ?_ ?_ ?_ ?_ ?_ ?_ ?_ ?_ ?_
        · simpa [List.append_assoc] using hnd
        · intro e he
          rcases (hmem_new e).mp he with hold | hnew
          · exact List.mem_append.mpr (Or.inl (hE1 e hold))
          · have := (hbatch_props e hnew).1
            simp [this]
        · intro d p hfind e he heid
          by_cases hdj : job.id = d
          · subst hdj
            rw [List.find?_cons_of_pos _ (by simp)] at hfind
            have hp : p = (job.id, r.1) := (Option.some_injective _ hfind).symm
            rcases (hmem_new e).mp he with hold | hnew
            · exact absurd (heid ▸ hE1 e hold) hjob_notin
            · rw [hp]
              exact (hbatch_props e hnew).2.2.2
          · rw [find?_cons_of_ne (by simpa using hdj), hcm] at hfind
            rcases (hmem_new e).mp he with hold | hnew
            · exact hE5 d p hfind e hold heid
            · exfalso
              apply hdj
              rw [← heid, (hbatch_props e hnew).1]
        · intro e he x hx
          rcases (hmem_new e).mp he with hold | hnew
          · apply find?_cons_isSome
            rw [hcm]
            exact hE6 e hold x hx
          · apply find?_cons_isSome
            rw [hcm]
            rw [(hbatch_props e hnew).1] at hx
            obtain ⟨p, hp, -⟩ := hdeps x hx
            rw [hp]
            rfl
        · intro d hsome
          by_cases hdj : job.id = d
          · simp [← hdj]
          · rw [find?_cons_of_ne (by simpa using hdj), hcm] at hsome
            exact List.mem_append.mpr (Or.inl (hE7 d hsome))
        · intro e he e' he' hdep
          rcases (hmem_new e).mp he with hold | hnew <;>
            rcases (hmem_new e').mp he' with hold' | hnew'
          · exact hE2 e hold e' hold' hdep
          · exfalso
            rw [(hbatch_props e' hnew').1] at hdep
            have := hE6 e hold job.id hdep
            exact hjob_notin (hE7 job.id this)
          · rw [(hbatch_props e hnew).1] at hdep
            obtain ⟨p, hp, hple⟩ := hdeps e'.job.id hdep
            have hstop := hE5 e'.job.id p hp e' hold' rfl
            have hstart := (hbatch_props e hnew).2.1
            omega
          · exfalso
            rw [(hbatch_props e hnew).1] at hdep
            rw [(hbatch_props e' hnew').1] at hdep
            exact hjob_notin (hdeps_pids job.id hdep)
        · have hids_old_new : ∀ a ∈ all_entries st.m_scheds,
              ∀ b, (b ∈ picks 0 bat ∨ b ∈ picks 1 bat ∨ b ∈ picks 2 bat) →
              a.job.id ≠ b.job.id := by
            intro a ha b hb heq
            apply hjob_notin
            have := (hbatch_props b hb).1
            rw [← this]
            rw [← heq]
            exact hE1 a ha
          have hnew_pairwise :
              (picks 0 bat ++ picks 1 bat ++ picks 2 bat).Pairwise no_overlap := by
            apply List.pairwise_append.mpr
            refine ⟨?_, ?_, ?_⟩
            · apply List.pairwise_append.mpr
              refine ⟨?_, ?_, ?_⟩
              · exact pairwise_picks 0 (hpw.imp (fun h _ => Or.inl h))
              · exact pairwise_picks 1 (hpw.imp (fun h _ => Or.inl h))
              · intro a ha b hb _
                exact bat_cross hpw (by omega) ha hb
            · exact pairwise_picks 2 (hpw.imp (fun h _ => Or.inl h))
            · intro a ha b hb _
              rcases List.mem_append.mp ha with h | h
              · exact bat_cross hpw (by omega) h hb
              · exact bat_cross hpw (by omega) h hb
          have hcombined : ((all_entries st.m_scheds) ++
              (picks 0 bat ++ picks 1 bat ++ picks 2 bat)).Pairwise no_overlap := by
            apply List.pairwise_append.mpr
            refine ⟨hE3, hnew_pairwise, ?_⟩
            intro a ha b hb heq
            exact absurd heq (hids_old_new a ha b (by
              rcases List.mem_append.mp hb with h | h
              · rcases List.mem_append.mp h with h' | h'
                · exact Or.inl h'
                · exact Or.inr (Or.inl h')
              · exact Or.inr (Or.inr h)))
          show (all_entries
            (SimState.mk r.2.m_times r.2.m_scheds ((job.id, r.1) :: r.2.completed)
              r.2.violations).m_scheds).Pairwise no_overlap
          show (all_entries r.2.m_scheds).Pairwise no_overlap
          have heq : all_entries r.2.m_scheds =
              ((st.m_scheds.c0 ++ picks 0 bat) ++ (st.m_scheds.c1 ++ picks 1 bat)) ++
                (st.m_scheds.c2 ++ picks 2 bat) := by
            rw [all_entries, hc0, hc1, hc2]
          rw [heq]
          exact (List.Perm.pairwise_iff (fun hh => no_overlap_symm hh)
            (six_perm st.m_scheds.c0 st.m_scheds.c1 st.m_scheds.c2
              (picks 0 bat) (picks 1 bat) (picks 2 bat))).mpr hcombined
        · show (r.2.m_scheds.c0.Pairwise intra_job_ordered)
          rw [hc0]
          apply List.pairwise_append.mpr
          refine ⟨hE40, ?_, ?_⟩
          · apply pairwise_picks
            refine hpw.imp ?_
            intro a b h
            intro _
            exact h
          intro a ha b hb heq
          exfalso
          apply hjob_notin
          have := (hbatch_props b (Or.inl hb)).1
          rw [← this, ← heq]
          exact hE1 a (by simp [all_entries, List.mem_append, ha])
        · show (r.2.m_scheds.c1.Pairwise intra_job_ordered)
          rw [hc1]
          apply List.pairwise_append.mpr
          refine ⟨hE41, ?_, ?_⟩
          · apply pairwise_picks
            refine hpw.imp ?_
            intro a b h
            intro _
            exact h
          intro a ha b hb heq
          exfalso
          apply hjob_notin
          have := (hbatch_props b (Or.inr (Or.inl hb))).1
          rw [← this, ← heq]
          exact hE1 a (by simp [all_entries, List.mem_append, ha])
        · show (r.2.m_scheds.c2.Pairwise intra_job_ordered)
          rw [hc2]
          apply List.pairwise_append.mpr
          refine ⟨hE42, ?_, ?_⟩
          · apply pairwise_picks
            refine hpw.imp ?_
            intro a b h
            intro _
            exact h
          intro a ha b hb heq
          exfalso
          apply hjob_notin
          have := (hbatch_props b (Or.inr (Or.inr hb))).1
          rw [← this, ← heq]
          exact hE1 a (by simp [all_entries, List.mem_append, ha])

lemma min_machine_cases (t : M3 Nat) :
    min_machine t = 0 ∨ min_machine t = 1 ∨ min_machine t = 2 := by
  unfold min_machine
  split
  · exact Or.inl rfl
  · split
    · exact Or.inr (Or.inl rfl)
    · exact Or.inr (Or.inr rfl)

lemma place_chunks_spec (j : Job) (sizes : List Nat) :
    ∀ (current : Nat) (st : GState),
      ∃ bat : List (Nat × Entry),
        (place_chunks j sizes current st).machine_schedules.c0 =
          st.machine_schedules.c0 ++ picks 0 bat ∧
        (place_chunks j sizes current st).machine_schedules.c1 =
          st.machine_schedules.c1 ++ picks 1 bat ∧
        (place_chunks j sizes current st).machine_schedules.c2 =
          st.machine_schedules.c2 ++ picks 2 bat ∧
        (∀ p ∈ bat, p.2.job = j ∧ current ≤ p.2.start ∧ p.2.start ≤ p.2.stop) ∧
        bat.Pairwise (fun p q => p.2.stop ≤ q.2.start) := by
  induction sizes with
  | nil =>
    intro current st
    refine ⟨[], ?_, ?_, ?_, ?_, ?_⟩ <;> simp [place_chunks, picks]
  | cons size rest ih =>
    intro current st
    have hstep : place_chunks j (size :: rest) current st =
        place_chunks j rest (place_chunk j size current st).1 (place_chunk j size current st).2 :=
      rfl
    rw [hstep]
    obtain ⟨bat', hc0, hc1, hc2, hprops, hpw⟩ :=
      ih (place_chunk j size current st).1 (place_chunk j size current st).2
    have hpc1 : (place_chunk j size current st).1 =
        max current (st.machine_times.get (min_machine st.machine_times)) + size := rfl
    have hpc2 : (place_chunk j size current st).2.machine_schedules =
        st.machine_schedules.set (min_machine st.machine_times)
          (st.machine_schedules.get (min_machine st.machine_times) ++
            [⟨j, max current (st.machine_times.get (min_machine st.machine_times)),
              max current (st.machine_times.get (min_machine st.machine_times)) + size,
              size⟩]) := rfl
    refine ⟨(min_machine st.machine_times,
             ⟨j, max current (st.machine_times.get (min_machine st.machine_times)),
               max current (st.machine_times.get (min_machine st.machine_times)) + size,
               size⟩) :: bat', ?_, ?_, ?_, ?_, ?_⟩
    · rw [hc0, hpc2]
      rcases min_machine_cases st.machine_times with hm | hm | hm <;>
        simp [picks_cons, hm, M3.set_c0, M3.get_eq]
    · rw [hc1, hpc2]
      rcases min_machine_cases st.machine_times with hm | hm | hm <;>
        simp [picks_cons, hm, M3.set_c1, M3.get_eq]
    · rw [hc2, hpc2]
      rcases min_machine_cases st.machine_times with hm | hm | hm <;>
        simp [picks_cons, hm, M3.set_c2, M3.get_eq]
    · intro p hp
      rcases List.mem_cons.mp hp with h | h
      · subst h
        refine ⟨rfl, ?_, ?_⟩
        · show current ≤ max current (st.machine_times.get (min_machine st.machine_times))
          omega
        · show max current (st.machine_times.get (min_machine st.machine_times)) ≤
            max current (st.machine_times.get (min_machine st.machine_times)) + size
          omega
      · obtain ⟨hj, hs, hss⟩ := hprops p h
        rw [hpc1] at hs
        exact ⟨hj, by omega, hss⟩
    · refine List.Pairwise.cons ?_ hpw
      intro q hq
      show max current (st.machine_times.get (min_machine st.machine_times)) + size ≤ q.2.start
      have := (hprops q hq).2.1
      rw [hpc1] at this
      exact this

lemma scan_dep_end_ge_acc (d : Nat) (l : List Entry) :
    ∀ acc, acc ≤ scan_dep_end d l acc := by
  induction l with
  | nil => intro acc; exact le_refl _
  | cons e t ih =>
    intro acc
    show acc ≤ scan_dep_end d t (if e.job.id = d then max acc e.stop else acc)
    refine le_trans ?_ (ih _)
    split
    · exact le_max_left _ _
    · exact le_refl _

lemma scan_dep_end_ge_mem (d : Nat) (e : Entry) (hid : e.job.id = d) :
    ∀ (l : List Entry), e ∈ l → ∀ acc, e.stop ≤ scan_dep_end d l acc := by
  intro l
  induction l with
  | nil =>
    intro he
    cases he
  | cons a t ih =>
    intro he acc
    show e.stop ≤ scan_dep_end d t (if a.job.id = d then max acc a.stop else acc)
    rcases List.mem_cons.mp he with h | h
    · subst h
      rw [if_pos hid]
      exact le_trans (le_max_right _ _) (scan_dep_end_ge_acc d t _)
    · exact ih h _

lemma earliest_step_mono (scheds : M3 (List Entry)) (d : Nat) (acc : Nat) :
    acc ≤ scan_dep_end d scheds.c2 (scan_dep_end d scheds.c1 (scan_dep_end d scheds.c0 acc)) :=
  le_trans (scan_dep_end_ge_acc d scheds.c0 acc)
    (le_trans (scan_dep_end_ge_acc d scheds.c1 _) (scan_dep_end_ge_acc d scheds.c2 _))

lemma earliest_step_hit (scheds : M3 (List Entry)) (e : Entry)
    (he : e ∈ all_entries scheds) (acc : Nat) :
    e.stop ≤ scan_dep_end e.job.id scheds.c2
      (scan_dep_end e.job.id scheds.c1 (scan_dep_end e.job.id scheds.c0 acc)) := by
  rcases List.mem_append.mp he with h | h
  · rcases List.mem_append.mp h with h' | h'
    · exact le_trans (scan_dep_end_ge_mem _ e rfl scheds.c0 h' acc)
        (le_trans (scan_dep_end_ge_acc _ scheds.c1 _) (scan_dep_end_ge_acc _ scheds.c2 _))
    · exact le_trans (scan_dep_end_ge_mem _ e rfl scheds.c1 h' _)
        (scan_dep_end_ge_acc _ scheds.c2 _)
  · exact scan_dep_end_ge_mem _ e rfl scheds.c2 h _

lemma earliest_foldl_mono (scheds : M3 (List Entry)) :
    ∀ (ds : List Nat) (a b : Nat), a ≤ b →
      a ≤ ds.foldl
        (fun acc d => scan_dep_end d scheds.c2
          (scan_dep_end d scheds.c1 (scan_dep_end d scheds.c0 acc))) b := by
  intro ds
  induction ds with
  | nil =>
    intro a b hab
    exact hab
  | cons d' ds' ih =>
    intro a b hab
    rw [List.foldl_cons]
    exact ih _ _ (le_trans hab (earliest_step_mono scheds d' b))

lemma earliest_foldl_ge (scheds : M3 (List Entry)) (e : Entry)
    (he : e ∈ all_entries scheds) :
    ∀ (deps : List Nat), e.job.id ∈ deps → ∀ acc,
      e.stop ≤ deps.foldl
        (fun acc d => scan_dep_end d scheds.c2
          (scan_dep_end d scheds.c1 (scan_dep_end d scheds.c0 acc))) acc := by
  intro deps
  induction deps with
  | nil =>
    intro hmem
    cases hmem
  | cons d ds ih =>
    intro hmem acc
    rcases List.mem_cons.mp hmem with h | h
    · subst h
      rw [List.foldl_cons]
      exact earliest_foldl_mono scheds ds _ _ (earliest_step_hit scheds e he acc)
    · rw [List.foldl_cons]
      exact ih h _

lemma earliest_start_of_ge (deps : List Nat) (scheds : M3 (List Entry)) (e : Entry)
    (he : e ∈ all_entries scheds) (hd : e.job.id ∈ deps) :
    e.stop ≤ earliest_start_of deps scheds :=
  earliest_foldl_ge scheds e he deps hd 0

lemma bt_process_job_eq (j : Job) (st : GState) :
    bt_process_job j st =
      place_chunks j
        (if j.duration > MAX_CHUNK_SIZE then create_intelligent_split_sizes j.duration
          else [j.duration])
        (earliest_start_of j.dependencies st.machine_schedules) st := by
  unfold bt_process_job
  split
  · rfl
  · rfl

lemma bt_schedule_loop_inv (order_rest : List Job) :
    ∀ (pids : List Nat) (st : GState),
      (pids ++ order_rest.map Job.id).Nodup →
      topo_sound pids order_rest →
      (∀ e ∈ all_entries st.machine_schedules, e.job.id ∈ pids) →
      (∀ e ∈ all_entries st.machine_schedules, ∀ x ∈ e.job.dependencies, x ∈ pids) →
      deps_respected st.machine_schedules →
      (all_entries st.machine_schedules).Pairwise no_overlap →
      st.machine_schedules.c0.Pairwise intra_job_ordered →
      st.machine_schedules.c1.Pairwise intra_job_ordered →
      st.machine_schedules.c2.Pairwise intra_job_ordered →
      (deps_respected (bt_schedule_loop order_rest st).machine_schedules ∧
        (all_entries (bt_schedule_loop order_rest st).machine_schedules).Pairwise no_overlap ∧
        (bt_schedule_loop order_rest st).machine_schedules.c0.Pairwise intra_job_ordered ∧
        (bt_schedule_loop order_rest st).machine_schedules.c1.Pairwise intra_job_ordered ∧
        (bt_schedule_loop order_rest st).machine_schedules.c2.Pairwise intra_job_ordered) := by
  induction order_rest with
  | nil =>
    intro pids st hnd hts hE1 hE6 hE2 hE3 hE40 hE41 hE42
    exact ⟨hE2, hE3, hE40, hE41, hE42⟩
  | cons j rest ih =>
    intro pids st hnd hts hE1 hE6 hE2 hE3 hE40 hE41 hE42
    have hloop : bt_schedule_loop (j :: rest) st = bt_schedule_loop rest (bt_process_job j st) :=
      rfl
    rw [hloop]
    obtain ⟨bat, hc0, hc1, hc2, hprops, hpw⟩ :=
      place_chunks_spec j
        (if j.duration > MAX_CHUNK_SIZE then create_intelligent_split_sizes j.duration
          else [j.duration])
        (earliest_start_of j.dependencies st.machine_schedules) st
    rw [← bt_process_job_eq] at hc0 hc1 hc2
    have hjob_notin : j.id ∉ pids := by
      intro hmem
      have hdisj := (List.nodup_append.mp hnd).2.2
      exact hdisj hmem (by simp)
    have hdeps_pids : ∀ d ∈ j.dependencies, d ∈ pids := hts.1
    have hmem_new : ∀ e, e ∈ all_entries (bt_process_job j st).machine_schedules ↔
        e ∈ all_entries st.machine_schedules ∨
          (e ∈ picks 0 bat ∨ e ∈ picks 1 bat ∨ e ∈ picks 2 bat) := by
      intro e
      simp only [all_entries, hc0, hc1, hc2, List.mem_append]
      tauto
    have hbatch_props : ∀ e, (e ∈ picks 0 bat ∨ e ∈ picks 1 bat ∨ e ∈ picks 2 bat) →
        e.job = j ∧ earliest_start_of j.dependencies st.machine_schedules ≤ e.start ∧
          e.start ≤ e.stop := by
      intro e he
      have get_props : ∀ m, e ∈ picks m bat →
          e.job = j ∧ earliest_start_of j.dependencies st.machine_schedules ≤ e.start ∧
            e.start ≤ e.stop := by
        intro m hm
        obtain ⟨p, hp, -, hpe⟩ := picks_mem hm
        rw [← hpe]
        exact hprops p hp
      rcases he with h | h | h
      · exact get_props 0 h
      · exact get_props 1 h
      · exact get_props 2 h
    refine ih (j.id :: pids) (bt_process_job j st) ?_ ?_ ?_ ?_ ?_ ?_ ?_ ?_ ?_
    · refine (List.Perm.nodup_iff ?_).mp hnd
      show (pids ++ j.id :: rest.map Job.id).Perm (j.id :: pids ++ rest.map Job.id)
      exact List.perm_middle
    · exact hts.2
    · intro e he
      rcases (hmem_new e).mp he with hold | hnew
      · exact List.mem_cons_of_mem _ (hE1 e hold)
      · have := (hbatch_props e hnew).1
        simp [this]
    · intro e he x hx
      rcases (hmem_new e).mp he with hold | hnew
      · exact List.mem_cons_of_mem _ (hE6 e hold x hx)
      · rw [(hbatch_props e hnew).1] at hx
        exact List.mem_cons_of_mem _ (hdeps_pids x hx)
    · intro e he e' he' hdep
      rcases (hmem_new e).mp he with hold | hnew <;>
        rcases (hmem_new e').mp he' with hold' | hnew'
      · exact hE2 e hold e' hold' hdep
      · exfalso
        rw [(hbatch_props e' hnew').1] at hdep
        exact hjob_notin (hE6 e hold j.id hdep)
      · rw [(hbatch_props e hnew).1] at hdep
        have hstop := earliest_start_of_ge j.dependencies st.machine_schedules e' hold' hdep
        have hstart := (hbatch_props e hnew).2.1
        omega
      · exfalso
        rw [(hbatch_props e hnew).1] at hdep
        rw [(hbatch_props e' hnew').1] at hdep
        exact hjob_notin (hdeps_pids j.id hdep)
    · have hids_old_new : ∀ a ∈ all_entries st.machine_schedules,
          ∀ b, (b ∈ picks 0 bat ∨ b ∈ picks 1 bat ∨ b ∈ picks 2 bat) →
          a.job.id ≠ b.job.id := by
        intro a ha b hb heq
        apply hjob_notin
        have := (hbatch_props b hb).1
        rw [← this]
        rw [← heq]
        exact hE1 a ha
      have hnew_pairwise :
          (picks 0 bat ++ picks 1 bat ++ picks 2 bat).Pairwise no_overlap := by
        apply List.pairwise_append.mpr
        refine ⟨?_, ?_, ?_⟩
        · apply List.pairwise_append.mpr
          refine ⟨?_, ?_, ?_⟩
          · exact pairwise_picks 0 (hpw.imp (fun h _ => Or.inl h))
          · exact pairwise_picks 1 (hpw.imp (fun h _ => Or.inl h))
          · intro a ha b hb _
            exact bat_cross hpw (by omega) ha hb
        · exact pairwise_picks 2 (hpw.imp (fun h _ => Or.inl h))
        · intro a ha b hb _
          rcases List.mem_append.mp ha with h | h
          · exact bat_cross hpw (by omega) h hb
          · exact bat_cross hpw (by omega) h hb
      have hcombined : ((all_entries st.machine_schedules) ++
          (picks 0 bat ++ picks 1 bat ++ picks 2 bat)).Pairwise no_overlap := by
        apply List.pairwise_append.mpr
        refine ⟨hE3, hnew_pairwise, ?_⟩
        intro a ha b hb heq
        exact absurd heq (hids_old_new a ha b (by
          rcases List.mem_append.mp hb with h | h
          · rcases List.mem_append.mp h with h' | h'
            · exact Or.inl h'
            · exact Or.inr (Or.inl h')
          · exact Or.inr (Or.inr h)))
      have heq : all_entries (bt_process_job j st).machine_schedules =
          ((st.machine_schedules.c0 ++ picks 0 bat) ++
            (st.machine_schedules.c1 ++ picks 1 bat)) ++
            (st.machine_schedules.c2 ++ picks 2 bat) := by
        rw [all_entries, hc0, hc1, hc2]
      rw [heq]
      exact (List.Perm.pairwise_iff (fun hh => no_overlap_symm hh)
        (six_perm st.machine_schedules.c0 st.machine_schedules.c1 st.machine_schedules.c2
          (picks 0 bat) (picks 1 bat) (picks 2 bat))).mpr hcombined
    · rw [hc0]
      apply List.pairwise_append.mpr
      refine ⟨hE40, ?_, ?_⟩
      · apply pairwise_picks
        refine hpw.imp ?_
        intro a b h
        intro _
        exact h
      · intro a ha b hb heq
        exfalso
        apply hjob_notin
        have := (hbatch_props b (Or.inl hb)).1
        rw [← this, ← heq]
        exact hE1 a (by simp [all_entries, List.mem_append, ha])
    · rw [hc1]
      apply List.pairwise_append.mpr
      refine ⟨hE41, ?_, ?_⟩
      · apply pairwise_picks
        refine hpw.imp ?_
        intro a b h
        intro _
        exact h
      · intro a ha b hb heq
        exfalso
        apply hjob_notin
        have := (hbatch_props b (Or.inr (Or.inl hb))).1
        rw [← this, ← heq]
        exact hE1 a (by simp [all_entries, List.mem_append, ha])
    · rw [hc2]
      apply List.pairwise_append.mpr
      refine ⟨hE42, ?_, ?_⟩
      · apply pairwise_picks
        refine hpw.imp ?_
        intro a b h
        intro _
        exact h
      · intro a ha b hb heq
        exfalso
        apply hjob_notin
        have := (hbatch_props b (Or.inr (Or.inr hb))).1
        rw [← this, ← heq]
        exact hE1 a (by simp [all_entries, List.mem_append, ha])

lemma topo_sound_append_one (j : Job) :
    ∀ (l : List Job) (seen : List Nat), topo_sound seen l →
      (∀ d ∈ j.dependencies, d ∈ l.map Job.id ++ seen) → topo_sound seen (l ++ [j]) := by
  intro l
  induction l with
  | nil =>
    intro seen _ hdeps
    refine ⟨?_, trivial⟩
    intro d hd
    simpa using hdeps d hd
  | cons a t ih =>
    intro seen hts hdeps
    refine ⟨hts.1, ih _ hts.2 ?_⟩
    intro d hd
    have := hdeps d hd
    simp only [List.map_cons, List.cons_append, List.mem_cons, List.mem_append] at this ⊢
    tauto

lemma topo_sound_split (j : Job) :
    ∀ (l1 : List Job) (seen : List Nat) (l2 : List Job),
      topo_sound seen (l1 ++ j :: l2) →
      ∀ d ∈ j.dependencies, d ∈ l1.map Job.id ++ seen := by
  intro l1
  induction l1 with
  | nil =>
    intro seen l2 hts d hd
    simpa using hts.1 d hd
  | cons a t ih =>
    intro seen l2 hts d hd
    have := ih _ l2 hts.2 d hd
    simp only [List.map_cons, List.cons_append, List.mem_cons, List.mem_append] at this ⊢
    tauto

lemma job_dict_find_aux (id : Nat) :
    ∀ (jobs : List Job) (acc : Option Job), (∀ j₀, acc = some j₀ → j₀.id = id) →
      ∀ j, jobs.foldl (fun acc j => if j.id = id then some j else acc) acc = some j →
        j.id = id := by
  intro jobs
  induction jobs with
  | nil =>
    intro acc hacc j h
    exact hacc j h
  | cons a t ih =>
    intro acc hacc j h
    rw [List.foldl_cons] at h
    refine ih _ ?_ j h
    intro j₀ hj₀
    by_cases ha : a.id = id
    · rw [if_pos ha] at hj₀
      rw [← Option.some_injective _ hj₀]
      exact ha
    · rw [if_neg ha] at hj₀
      exact hacc j₀ hj₀

lemma job_dict_find_id {jobs : List Job} {id : Nat} {j : Job}
    (h : job_dict_find jobs id = some j) : j.id = id :=
  job_dict_find_aux id jobs none (fun _ h => by cases h) j h

lemma bt_foldl_no_ok (jobs : List Job) (fuel : Nat) (e : DfsOut) (he : ∀ st, e ≠ .ok st) :
    ∀ ds : List Nat,
      ds.foldl (fun acc d => match acc with
        | DfsOut.ok st' => bt_dfs jobs fuel d st'
        | e => e) e = e := by
  intro ds
  induction ds with
  | nil => rfl
  | cons d t ih =>
    rw [List.foldl_cons]
    rcases e with st | _ | _ | _
    · exact absurd rfl (he st)
    · exact ih
    · exact ih
    · exact ih

lemma bt_foldl_eq_deps (jobs : List Job) (fuel : Nat) :
    ∀ (ds : List Nat) (st : TState),
      ds.foldl (fun acc d => match acc with
        | DfsOut.ok st' => bt_dfs jobs fuel d st'
        | e => e) (DfsOut.ok st) = bt_dfs_deps jobs fuel ds st := by
  intro ds
  induction ds with
  | nil => intro st; rfl
  | cons d t ih =>
    intro st
    rw [List.foldl_cons, bt_dfs_deps]
    have hred : (t.foldl (fun acc d => match acc with
        | DfsOut.ok st' => bt_dfs jobs fuel d st'
        | e => e) (match DfsOut.ok st with
          | DfsOut.ok st' => bt_dfs jobs fuel d st'
          | e => e)) =
        t.foldl (fun acc d => match acc with
          | DfsOut.ok st' => bt_dfs jobs fuel d st'
          | e => e) (bt_dfs jobs fuel d st) := rfl
    rw [hred]
    rcases h : bt_dfs jobs fuel d st with st1 | _ | _ | _
    · exact ih st1
    · exact bt_foldl_no_ok jobs fuel _ (fun _ hc => DfsOut.noConfusion hc) t
    · exact bt_foldl_no_ok jobs fuel _ (fun _ hc => DfsOut.noConfusion hc) t
    · exact bt_foldl_no_ok jobs fuel _ (fun _ hc => DfsOut.noConfusion hc) t

lemma bt_dfs_sound (jobs : List Job) : ∀ fuel : Nat,
    (∀ (id : Nat) (st st' : TState), bt_dfs jobs fuel id st = .ok st' → TInv st →
      TInv st' ∧ st'.temp = st.temp ∧ (∀ v ∈ st.visited, v ∈ st'.visited) ∧
        id ∈ st'.visited) ∧
    (∀ (ds : List Nat) (st st' : TState), bt_dfs_deps jobs fuel ds st = .ok st' → TInv st →
      TInv st' ∧ st'.temp = st.temp ∧ (∀ v ∈ st.visited, v ∈ st'.visited) ∧
        (∀ d ∈ ds, d ∈ st'.visited)) := by
  intro fuel
  induction fuel with
  | zero =>
    constructor
    · intro id st st' h _
      simp [bt_dfs] at h
    · intro ds st st' h hinv
      rcases ds with _ | ⟨d, ds⟩
      · rw [bt_dfs_deps] at h
        cases h
        exact ⟨hinv, rfl, fun v hv => hv, fun d hd => absurd hd (List.not_mem_nil d)⟩
      · rw [bt_dfs_deps] at h
        simp [bt_dfs] at h
  | succ fuel ihp =>
    obtain ⟨ihdfs, ihdeps⟩ := ihp
    have hdfs : ∀ (id : Nat) (st st' : TState), bt_dfs jobs (fuel + 1) id st = .ok st' →
        TInv st → TInv st' ∧ st'.temp = st.temp ∧
          (∀ v ∈ st.visited, v ∈ st'.visited) ∧ id ∈ st'.visited := by
      intro id st st' h hinv
      rw [bt_dfs] at h
      by_cases htemp : id ∈ st.temp
      · rw [if_pos htemp] at h
        cases h
      · rw [if_neg htemp] at h
        by_cases hvis : id ∈ st.visited
        · rw [if_pos hvis] at h
          cases h
          exact ⟨hinv, rfl, fun v hv => hv, hvis⟩
        · rw [if_neg hvis] at h
          rcases hfind : job_dict_find jobs id with _ | job
          · rw [hfind] at h
            cases h
          · rw [hfind] at h
            dsimp only at h
            rw [bt_foldl_eq_deps] at h
            rcases hdeps : bt_dfs_deps jobs fuel job.dependencies
                { st with temp := id :: st.temp } with st2 | _ | _ | _ <;> rw [hdeps] at h
            · have hinv1 : TInv { st with temp := id :: st.temp } := by
                refine ⟨hinv.1, hinv.2.1, ?_, hinv.2.2.2⟩
                intro t ht
                rcases List.mem_cons.mp ht with h' | h'
                · rw [h']
                  exact hvis
                · exact hinv.2.2.1 t h'
              obtain ⟨hinv2, htemp2, hmono2, hds2⟩ :=
                ihdeps job.dependencies _ _ hdeps hinv1
              have hjid : job.id = id := job_dict_find_id hfind
              have hst' : st' = ⟨id :: st2.visited, st2.temp.erase id,
                  st2.result ++ [job]⟩ := by
                cases h
                rfl
              have hid_notin2 : id ∉ st2.visited := by
                apply hinv2.2.2.1
                rw [htemp2]
                exact List.mem_cons_self _ _
              have htemp_erase : st2.temp.erase id = st.temp := by
                rw [htemp2]
                exact List.erase_cons_head _ _
              refine ⟨⟨?_, ?_, ?_, ?_⟩, ?_, ?_, ?_⟩
              · rw [hst']
                show id :: st2.visited = ((st2.result ++ [job]).map Job.id).reverse
                rw [List.map_append, List.reverse_append]
                simp [hinv2.1, hjid]
              · rw [hst']
                exact List.Nodup.cons hid_notin2 hinv2.2.1
              · rw [hst']
                intro t ht
                simp only [htemp_erase] at ht
                intro hcontra
                rcases List.mem_cons.mp hcontra with h' | h'
                · rw [h'] at ht
                  exact htemp ht
                · refine hinv2.2.2.1 t ?_ h'
                  rw [htemp2]
                  exact List.mem_cons_of_mem _ ht
              · rw [hst']
                show topo_sound [] (st2.result ++ [job])
                refine topo_sound_append_one job st2.result [] hinv2.2.2.2 ?_
                intro d hd
                have hdv := hds2 d hd
                rw [hinv2.1] at hdv
                simpa using hdv
              · rw [hst']
                show st2.temp.erase id = st.temp
                exact htemp_erase
              · rw [hst']
                intro v hv
                exact List.mem_cons_of_mem _ (hmono2 v hv)
              · rw [hst']
                exact List.mem_cons_self _ _
            · cases h
            · cases h
            · cases h
    refine ⟨hdfs, ?_⟩
    intro ds
    induction ds with
    | nil =>
      intro st st' h hinv
      rw [bt_dfs_deps] at h
      cases h
      exact ⟨hinv, rfl, fun v hv => hv, fun d hd => absurd hd (List.not_mem_nil d)⟩
    | cons d ds ihds =>
      intro st st' h hinv
      rw [bt_dfs_deps] at h
      rcases hd : bt_dfs jobs (fuel + 1) d st with st1 | _ | _ | _ <;> rw [hd] at h
      · obtain ⟨hinv1, htemp1, hmono1, hdin⟩ := hdfs d st st1 hd hinv
        obtain ⟨hinv2, htemp2, hmono2, hall⟩ := ihds st1 st' h hinv1
        refine ⟨hinv2, htemp2.trans htemp1, fun v hv => hmono2 _ (hmono1 _ hv), ?_⟩
        intro d' hd'
        rcases List.mem_cons.mp hd' with h' | h'
        · rw [h']
          exact hmono2 _ hdin
        · exact hall d' h'
      · cases h
      · cases h
      · cases h

lemma bt_topo_loop_sound (jobs : List Job) (fuel : Nat) :
    ∀ (js : List Job) (st : TState) (order : List Job),
      bt_topo_loop jobs fuel js st = .ok order → TInv st →
      topo_sound [] order ∧ (order.map Job.id).Nodup := by
  intro js
  induction js with
  | nil =>
    intro st order h hinv
    rw [bt_topo_loop] at h
    cases h
    refine ⟨hinv.2.2.2, ?_⟩
    have hnd := hinv.2.1
    rw [hinv.1] at hnd
    exact List.nodup_reverse.mp hnd
  | cons j js ih =>
    intro st order h hinv
    rw [bt_topo_loop] at h
    by_cases hv : j.id ∈ st.visited
    · rw [if_pos hv] at h
      exact ih st order h hinv
    · rw [if_neg hv] at h
      rcases hd : bt_dfs jobs fuel j.id st with st1 | _ | _ | _ <;> rw [hd] at h
      · exact ih st1 order h ((bt_dfs_sound jobs fuel).1 j.id st st1 hd hinv).1
      · cases h
      · cases h
      · cases h

lemma bt_topological_sort_sound (jobs : List Job) (order : List Job) :
    bt_topological_sort jobs = .ok order →
    topo_sound [] order ∧ (order.map Job.id).Nodup := by
  intro h
  refine bt_topo_loop_sound jobs (topo_fuel jobs) jobs ⟨[], [], []⟩ order h ?_
  exact ⟨rfl, List.nodup_nil, fun t ht => absurd ht (List.not_mem_nil t), trivial⟩

lemma greedy_run_invariants (jobs order : List Job)
    (h : bt_topological_sort jobs = .ok order) :
    deps_respected (bt_schedule_loop order ⟨M3.fill 0, M3.fill [], []⟩).machine_schedules ∧
    (all_entries
        (bt_schedule_loop order ⟨M3.fill 0, M3.fill [], []⟩).machine_schedules).Pairwise
      no_overlap ∧
    (bt_schedule_loop order ⟨M3.fill 0, M3.fill [], []⟩).machine_schedules.c0.Pairwise
      intra_job_ordered ∧
    (bt_schedule_loop order ⟨M3.fill 0, M3.fill [], []⟩).machine_schedules.c1.Pairwise
      intra_job_ordered ∧
    (bt_schedule_loop order ⟨M3.fill 0, M3.fill [], []⟩).machine_schedules.c2.Pairwise
      intra_job_ordered := by
  obtain ⟨hts, hnd⟩ := bt_topological_sort_sound jobs order h
  refine bt_schedule_loop_inv order [] ⟨M3.fill 0, M3.fill [], []⟩ ?_ hts ?_ ?_ ?_ ?_ ?_ ?_ ?_
  · simpa using hnd
  · intro e he
    simp [all_entries, M3.fill] at he
  · intro e he
    simp [all_entries, M3.fill] at he
  · intro e he
    simp [all_entries, M3.fill] at he
  · exact List.Pairwise.nil
  · exact List.Pairwise.nil
  · exact List.Pairwise.nil
  · exact List.Pairwise.nil

lemma evaluator_run_invariants (jobs : List Job) (chrom : Chromosome) (order : List Job)
    (f : ℚ) (st : SimState)
    (hnd : (order.map Job.id).Nodup)
    (h : evaluate_chromosome jobs chrom order = .ok f st) :
    deps_respected st.m_scheds ∧
    (all_entries st.m_scheds).Pairwise no_overlap ∧
    st.m_scheds.c0.Pairwise intra_job_ordered ∧
    st.m_scheds.c1.Pairwise intra_job_ordered ∧
    st.m_scheds.c2.Pairwise intra_job_ordered := by
  unfold evaluate_chromosome at h
  rcases hsc : size_check jobs chrom with _ | b
  · rw [hsc] at h
    cases h
  · rw [hsc] at h
    cases b
    · cases h
    · rcases hsim : sim_jobs chrom order ⟨M3.fill 0, M3.fill [], [], []⟩
          with _ | st₀ <;> rw [hsim] at h
      · cases h
      · have hst : st = st₀ := by
          cases h
          rfl
        subst hst
        refine sim_jobs_inv chrom order [] _ st hsim ?_ ?_ ?_ ?_ ?_ ?_ ?_ ?_ ?_ ?_
        · simpa using hnd
        · intro e he
          simp [all_entries, M3.fill] at he
        · intro d p hp
          exact Option.noConfusion hp
        · intro e he
          simp [all_entries, M3.fill] at he
        · intro d hd
          exact Bool.noConfusion hd
        · intro e he
          simp [all_entries, M3.fill] at he
        · exact List.Pairwise.nil
        · exact List.Pairwise.nil
        · exact List.Pairwise.nil
        · exact List.Pairwise.nil

/-- C5: in every schedule the greedy scheduler builds from a successful
topological sort, and in every feasible chromosome evaluation of the
schedule evaluator (over a duplicate-free job order, as the topological
sorts produce), no chunk starts before the end of any scheduled chunk of
one of its job's dependencies - hence not before their maximum end time;
in particular, in scenario 4 (job B, id 2, depending on job A, id 1,
duration 5 each) every chunk of B in the greedy solver's returned schedule
starts at time 5 or later. -/
theorem C5_dependency_start :
    (∀ (jobs order : List Job), bt_topological_sort jobs = .ok order →
      deps_respected
        (bt_schedule_loop order ⟨M3.fill 0, M3.fill [], []⟩).machine_schedules) ∧
    (∀ (jobs : List Job) (chrom : Chromosome) (order : List Job) (f : ℚ) (st : SimState),
      (order.map Job.id).Nodup → evaluate_chromosome jobs chrom order = .ok f st →
      deps_respected st.m_scheds) ∧
    (∃ res : ScheduleResult, backtracking_solve jobsAB = .ok res ∧
      ∀ js ∈ res.schedule, ∀ c ∈ js, c.job.id = 2 → 5 ≤ c.start) := by
  refine ⟨?_, ?_, ?_⟩
  · intro jobs order h
    exact (greedy_run_invariants jobs order h).1
  · intro jobs chrom order f st hnd h
    exact (evaluator_run_invariants jobs chrom order f st hnd h).1
  · exact ⟨_, rfl, by decide⟩

/-- Witness for C5: scenario 4 run through the greedy scheduler (the
topological sort returns the order A, B) and the one-job fixture run
through the evaluator. -/
theorem C5_dependency_start_witness :
    (bt_topological_sort jobsAB = .ok jobsAB ∧
      deps_respected
        (bt_schedule_loop jobsAB ⟨M3.fill 0, M3.fill [], []⟩).machine_schedules) ∧
    ∃ f st, evaluate_chromosome jobsW chromW jobsW = .ok f st ∧
      deps_respected st.m_scheds := by
  refine ⟨⟨rfl, C5_dependency_start.1 jobsAB jobsAB rfl⟩, ?_⟩
  obtain ⟨f, st, h⟩ : ∃ f st, evaluate_chromosome jobsW chromW jobsW = .ok f st :=
    ⟨_, _, rfl⟩
  exact ⟨f, st, h, C5_dependency_start.2.1 jobsW chromW jobsW f st (by decide) h⟩

/-- C10: in every schedule the greedy scheduler builds from a successful
topological sort, and in every feasible chromosome evaluation of the
schedule evaluator (over a duplicate-free job order), any two chunks of the
same job occupy disjoint time intervals (one ends before the other starts,
also across machines), and on each single machine consecutive chunks of a
job appear in interval order. -/
theorem C10_no_intra_job_overlap :
    (∀ (jobs order : List Job), bt_topological_sort jobs = .ok order →
      (all_entries
          (bt_schedule_loop order ⟨M3.fill 0, M3.fill [], []⟩).machine_schedules).Pairwise
        no_overlap ∧
      (bt_schedule_loop order ⟨M3.fill 0, M3.fill [], []⟩).machine_schedules.c0.Pairwise
        intra_job_ordered ∧
      (bt_schedule_loop order ⟨M3.fill 0, M3.fill [], []⟩).machine_schedules.c1.Pairwise
        intra_job_ordered ∧
      (bt_schedule_loop order ⟨M3.fill 0, M3.fill [], []⟩).machine_schedules.c2.Pairwise
        intra_job_ordered) ∧
    (∀ (jobs : List Job) (chrom : Chromosome) (order : List Job) (f : ℚ) (st : SimState),
      (order.map Job.id).Nodup → evaluate_chromosome jobs chrom order = .ok f st →
      (all_entries st.m_scheds).Pairwise no_overlap ∧
      st.m_scheds.c0.Pairwise intra_job_ordered ∧
      st.m_scheds.c1.Pairwise intra_job_ordered ∧
      st.m_scheds.c2.Pairwise intra_job_ordered) := by
  constructor
  · intro jobs order h
    obtain ⟨_, h2, h3, h4, h5⟩ := greedy_run_invariants jobs order h
    exact ⟨h2, h3, h4, h5⟩
  · intro jobs chrom order f st hnd h
    obtain ⟨_, h2, h3, h4, h5⟩ := evaluator_run_invariants jobs chrom order f st hnd h
    exact ⟨h2, h3, h4, h5⟩

/-- Witness for C10: the three-job fixture of scenario 1 (each duration-10
job splits into two chunks, which land on different machines) through the
greedy scheduler, and the one-job fixture through the evaluator. -/
theorem C10_no_intra_job_overlap_witness :
    (bt_topological_sort jobs3 = .ok jobs3 ∧
      (all_entries
          (bt_schedule_loop jobs3 ⟨M3.fill 0, M3.fill [], []⟩).machine_schedules).Pairwise
        no_overlap) ∧
    ∃ f st, evaluate_chromosome jobsW chromW jobsW = .ok f st ∧
      (all_entries st.m_scheds).Pairwise no_overlap := by
  refine ⟨⟨rfl, (C10_no_intra_job_overlap.1 jobs3 jobs3 rfl).1⟩, ?_⟩
  obtain ⟨f, st, h⟩ : ∃ f st, evaluate_chromosome jobsW chromW jobsW = .ok f st :=
    ⟨_, _, rfl⟩
  exact ⟨f, st, h,
    (C10_no_intra_job_overlap.2 jobsW chromW jobsW f st (by decide) h).1⟩
